import Mathlib

set_option maxRecDepth 200000

/-!
Verification of the KSH -> osu!mania chart converter (`ksh2osu.py`).

The development shallowly embeds the converter's core pipeline:
metadata extraction (`parse_ksh_metadata`), the timeline builder
(`parse_chart_data` with its per-measure collection loop), note/hold
processing (`process_bt_note`, `process_fx_note`,
`process_measure_with_lookahead`, `check_cross_measure_holds`,
`close_remaining_holds`) and the beatmap serializer
(`create_osu_content`).

Python floats are modelled as exact rationals, Python `int(...)`
truncation toward zero as `pyTrunc`, Python `round(...)`
(round-half-to-even) as `pyRound`, and the two places where the Python
code can raise on malformed numeric input (an unparsable or zero header
tempo, and a zero in-measure tempo, both of which produce an uncaught
exception through `float(...)` or a `ZeroDivisionError`) are modelled
by `Option`-valued functions returning `none`.
-/

/-- Python `int(x)` on a float: truncation toward zero. -/
def pyTrunc (q : ℚ) : Int := if 0 ≤ q then ⌊q⌋ else ⌈q⌉

/-- Python `round(x)`: round half to even. -/
def pyRound (q : ℚ) : Int :=
  let f := ⌊q⌋
  let r := q - f
  if r < 1/2 then f
  else if 1/2 < r then f + 1
  else if f % 2 = 0 then f else f + 1

/-- Charwise strip of leading and trailing whitespace (Python
`strip()`), implemented over the character list so that terms reduce
inside the kernel. -/
def pyStrip (s : String) : String :=
  String.mk (((s.toList.dropWhile Char.isWhitespace).reverse.dropWhile
    Char.isWhitespace).reverse)

/-- Charwise prefix test (Python `startswith`). -/
def strStartsWith (s p : String) : Bool := p.toList.isPrefixOf s.toList

/-- Charwise membership test (Python `in` with a one-character needle). -/
def strContainsChar (s : String) (c : Char) : Bool := s.toList.contains c

/-- Charwise drop (Python slicing `s[n:]`). -/
def strDrop (s : String) (n : Nat) : String := String.mk (s.toList.drop n)

/-- Split a character list at every occurrence of `c` (Python
`split(c)`, which keeps empty parts). -/
def splitOnCharAux (c : Char) : List Char → List Char → List (List Char)
  | [], acc => [acc.reverse]
  | x :: xs, acc =>
    if x = c then acc.reverse :: splitOnCharAux c xs []
    else splitOnCharAux c xs (x :: acc)

/-- Python `s.split(c)` for a one-character separator. -/
def strSplitOnChar (s : String) (c : Char) : List String :=
  (splitOnCharAux c s.toList []).map String.mk

/-- Join with a one-character separator (used to undo a split). -/
def strIntercalateChar (c : Char) : List String → String
  | [] => ""
  | [x] => x
  | x :: y :: xs => x ++ String.mk [c] ++ strIntercalateChar c (y :: xs)

/-- Value of a string of decimal digits. -/
def digitsVal (s : String) : ℚ :=
  s.toList.foldl (fun acc c => acc * 10 + (c.toNat - '0'.toNat : ℕ)) 0

/-- Python `float(s)` restricted to plain decimal literals
(optional sign, digits, optional decimal point); returns `none` where
Python would raise `ValueError`. -/
def pyFloat (s : String) : Option ℚ :=
  let t := pyStrip s
  let (sign, u) : ℚ × String :=
    if strStartsWith t "-" then (-1, strDrop t 1)
    else if strStartsWith t "+" then (1, strDrop t 1)
    else (1, t)
  match strSplitOnChar u '.' with
  | [a] =>
    if a ≠ "" ∧ a.toList.all Char.isDigit then some (sign * digitsVal a) else none
  | [a, b] =>
    if (a ≠ "" ∨ b ≠ "") ∧ a.toList.all Char.isDigit ∧ b.toList.all Char.isDigit then
      some (sign * (digitsVal a + digitsVal b / (10 ^ b.length : ℚ)))
    else none
  | _ => none

/-- Python `int(s)` on a string: optional sign and decimal digits. -/
def pyIntParse (s : String) : Option Int :=
  let t := pyStrip s
  let (sign, u) : Int × String :=
    if strStartsWith t "-" then (-1, strDrop t 1)
    else if strStartsWith t "+" then (1, strDrop t 1)
    else (1, t)
  if u ≠ "" ∧ u.toList.all Char.isDigit then
    some (sign *
      (u.toList.foldl (fun acc c => acc * 10 + (c.toNat - '0'.toNat : ℕ)) 0 : ℕ))
  else none

/-- Configuration of a `KSHConverter` instance: 4K-vs-6K mode and the
manual millisecond offset. -/
structure Conv where
  fourKey : Bool
  customOffset : Int
deriving DecidableEq, Repr

/-- `self.num_lanes`. -/
def numLanes (c : Conv) : Nat := if c.fourKey then 4 else 6

/-- `ksh_to_osu_lane`: map a KSH lane index to an osu!mania lane. -/
def ksh_to_osu_lane (c : Conv) (isFx : Bool) (idx : Nat) : Option Nat :=
  if c.fourKey then
    if isFx then none else some (min idx 3)
  else
    if isFx then some (if idx = 0 then 0 else 5)
    else some (1 + min idx 3)

/-- `lane_x_pos`: x pixel coordinate of an osu!mania lane
(midpoint of the lane's slice of the 512-unit width). -/
def lane_x_pos (c : Conv) (lane : Nat) : Int :=
  pyRound ((lane : ℚ) * (512 / (numLanes c : ℚ)) + (512 / (numLanes c : ℚ)) / 2)

/-- A hit object as emitted into `hit_objects`:
`tap x t` stands for the line `f"{x},192,{t},1,0,0:0:0:0:"` and
`hold x s e` for `f"{x},192,{s},128,0,{e}"`. -/
inductive HitObj where
  | tap (x : Int) (time : Int)
  | hold (x : Int) (start : Int) (stop : Int)
deriving DecidableEq, Repr

/-- A timing point as emitted into `timing_points`: the line
`f"{time},{msPerBeat:.6f},4,1,0,100,1,0"`; the third field is the
literal `4` at both emission sites and is carried in `meter`. -/
structure TimingPoint where
  time : Int
  msPerBeat : ℚ
  meter : Nat
deriving DecidableEq, Repr

/-- Read the hold-state table (Python `hold_state[lane]`). -/
def holdGet (hs : List (Option Int)) (lane : Nat) : Option Int :=
  hs.getD lane none

/-- Write the hold-state table (Python `hold_state[lane] = v`). -/
def holdSet (hs : List (Option Int)) (lane : Nat) (v : Option Int) :
    List (Option Int) :=
  hs.set lane v

/-- `process_bt_note`: BT ruleset, `1` = tap, `2` = hold, `0`/space = empty. -/
def process_bt_note (c : Conv) (ch : Char) (idx : Nat) (t : Int)
    (hs : List (Option Int)) (hits : List HitObj) :
    List (Option Int) × List HitObj :=
  match ksh_to_osu_lane c false idx with
  | none => (hs, hits)
  | some lane =>
    let x := lane_x_pos c lane
    if ch = '1' then
      match holdGet hs lane with
      | some s => (holdSet hs lane none, hits ++ [.hold x s t, .tap x t])
      | none => (hs, hits ++ [.tap x t])
    else if ch = '2' then
      match holdGet hs lane with
      | some _ => (hs, hits)
      | none => (holdSet hs lane (some t), hits)
    else if ch = '0' ∨ ch = ' ' then
      match holdGet hs lane with
      | some s => (holdSet hs lane none, hits ++ [.hold x s t])
      | none => (hs, hits)
    else (hs, hits)

/-- `process_fx_note`: FX ruleset, `2` = tap, `1` = hold, `0`/space = empty. -/
def process_fx_note (c : Conv) (ch : Char) (idx : Nat) (t : Int)
    (hs : List (Option Int)) (hits : List HitObj) :
    List (Option Int) × List HitObj :=
  match ksh_to_osu_lane c true idx with
  | none => (hs, hits)
  | some lane =>
    let x := lane_x_pos c lane
    if ch = '2' then
      match holdGet hs lane with
      | some s => (holdSet hs lane none, hits ++ [.hold x s t, .tap x t])
      | none => (hs, hits ++ [.tap x t])
    else if ch = '1' then
      match holdGet hs lane with
      | some _ => (hs, hits)
      | none => (holdSet hs lane (some t), hits)
    else if ch = '0' ∨ ch = ' ' then
      match holdGet hs lane with
      | some s => (holdSet hs lane none, hits ++ [.hold x s t])
      | none => (hs, hits)
    else (hs, hits)

/-- The `for bt_idx, char in enumerate(...)` loops of
`process_measure_with_lookahead`: dispatch characters of one segment,
breaking once `idx` reaches `limit` (4 for BT, 2 for FX). -/
def process_seg (c : Conv) (isFx : Bool) (limit : Nat) :
    List Char → Nat → Int → List (Option Int) → List HitObj →
    List (Option Int) × List HitObj
  | [], _, _, hs, hits => (hs, hits)
  | ch :: rest, idx, t, hs, hits =>
    if limit ≤ idx then (hs, hits)
    else
      let p := if isFx then process_fx_note c ch idx t hs hits
               else process_bt_note c ch idx t hs hits
      process_seg c isFx limit rest (idx + 1) t p.1 p.2

/-- First segment of a note-data line (`parts[0]` of `line.split('|')`). -/
def btPart (l : String) : String := (strSplitOnChar l '|').headD ""

/-- Second segment of a note-data line
(`parts[1] if len(parts) > 1 else ''`). -/
def fxPart (l : String) : String := ((strSplitOnChar l '|').get? 1).getD ""

/-- Process one note-data line at absolute time `t`: the BT characters
(positions 0-3), then the FX characters (positions 0-1). -/
def process_note_line (c : Conv) (l : String) (t : Int)
    (hs : List (Option Int)) (hits : List HitObj) :
    List (Option Int) × List HitObj :=
  let p := process_seg c false 4 (btPart l).toList 0 t hs hits
  process_seg c true 2 (fxPart l).toList 0 t p.1 p.2

/-- The per-line loop of `process_measure_with_lookahead`: line `k`
is processed at `int(start_time + k * line_duration)`. -/
def process_lines (c : Conv) :
    List String → Nat → ℚ → ℚ → List (Option Int) → List HitObj →
    List (Option Int) × List HitObj
  | [], _, _, _, hs, hits => (hs, hits)
  | l :: rest, k, start, ld, hs, hits =>
    let p := process_note_line c l (pyTrunc (start + (k : ℚ) * ld)) hs hits
    process_lines c rest (k + 1) start ld p.1 p.2

/-- The close-only segment scan of `check_cross_measure_holds`: close a
lane's open hold when the corresponding character is in `closeChars`. -/
def cross_seg (c : Conv) (isFx : Bool) (closeChars : List Char) (limit : Nat) :
    List Char → Nat → Int → List (Option Int) → List HitObj →
    List (Option Int) × List HitObj
  | [], _, _, hs, hits => (hs, hits)
  | ch :: rest, idx, endT, hs, hits =>
    if limit ≤ idx then (hs, hits)
    else
      let p :=
        match ksh_to_osu_lane c isFx idx with
        | none => (hs, hits)
        | some lane =>
          match holdGet hs lane with
          | some s =>
            if closeChars.contains ch then
              (holdSet hs lane none, hits ++ [HitObj.hold (lane_x_pos c lane) s endT])
            else (hs, hits)
          | none => (hs, hits)
      cross_seg c isFx closeChars limit rest (idx + 1) endT p.1 p.2

/-- `check_cross_measure_holds`: close holds at a measure boundary based
on the next measure's first note-data line (BT close set `['0','1',' ']`,
FX close set `['0','2',' ']`). -/
def check_cross_measure_holds (c : Conv) (hs : List (Option Int))
    (hits : List HitObj) (nextData : List String) (endT : Int) :
    List (Option Int) × List HitObj :=
  match nextData.find? (fun l => strContainsChar l '|') with
  | none => (hs, hits)
  | some firstLine =>
    let p := cross_seg c false ['0', '1', ' '] 4 (btPart firstLine).toList 0 endT hs hits
    cross_seg c true ['0', '2', ' '] 2 (fxPart firstLine).toList 0 endT p.1 p.2

/-- `process_measure_with_lookahead`: process a measure's note-data
lines, then (only when lookahead data is a non-empty list, mirroring
`if next_measure_data:`) run the cross-measure hold check; returns the
new current time together with the hold state and hit objects. -/
def process_measure_with_lookahead (c : Conv) (noteLines : List String)
    (start bpm : ℚ) (beats : Int) (hs : List (Option Int))
    (hits : List HitObj) (nextData : Option (List String)) :
    ℚ × List (Option Int) × List HitObj :=
  if noteLines.isEmpty then (start, hs, hits)
  else
    let dur := 60000 / bpm * (beats : ℚ)
    let ld := dur / (noteLines.length : ℚ)
    let p := process_lines c noteLines 0 start ld hs hits
    let p2 :=
      match nextData with
      | some d =>
        if d.isEmpty then p
        else check_cross_measure_holds c p.1 p.2 d (pyTrunc (start + dur))
      | none => p
    (start + dur, p2.1, p2.2)

/-- `process_measure`: the legacy entry point actually used by
`parse_chart_data`; it passes `None` as the lookahead data. -/
def process_measure (c : Conv) (noteLines : List String) (start bpm : ℚ)
    (beats : Int) (hs : List (Option Int)) (hits : List HitObj) :
    ℚ × List (Option Int) × List HitObj :=
  process_measure_with_lookahead c noteLines start bpm beats hs hits none

/-- The mutable state of `parse_chart_data`'s measure loop:
`current_bpm`, `beats_per_measure`, `current_time`, `hold_state`,
`timing_points` and `hit_objects`. -/
structure BState where
  bpm : ℚ
  beats : Int
  time : ℚ
  hold : List (Option Int)
  tps : List TimingPoint
  hits : List HitObj
deriving DecidableEq, Repr

/-- Numerator parsed from the payload of a `beat=` line:
`int(beat_str.split('/')[0])` when it contains `/`, else
`int(beat_str)`. -/
def beatNum (bs : String) : Option Int :=
  if strContainsChar bs '/' then pyIntParse ((strSplitOnChar bs '/').headD "")
  else pyIntParse bs

/-- The inner collection loop of `parse_chart_data` (its lines 122-162):
consume stripped lines up to the next `--` delimiter, handling `t=` and
`beat=` control lines as encountered and gathering the remaining
non-control lines as the measure's lines.  The `--` delimiter itself is
consumed (the `i += 1` after the measure).  Returns `none` where the
Python code raises `ZeroDivisionError` on a zero tempo. -/
def collect_measure (c : Conv) :
    List String → BState → Option (BState × List String × List String)
  | [], st => some (st, [], [])
  | l :: rest, st =>
    let s := pyStrip l
    if s = "--" then some (st, [], rest)
    else if s = "" then collect_measure c rest st
    else if strStartsWith s "fx-l=" ∨ strStartsWith s "fx-r=" then
      collect_measure c rest st
    else if strStartsWith s "t=" then
      match pyFloat (strDrop s 2) with
      | none => collect_measure c rest st
      | some nb =>
        if 1/1000 < |nb - st.bpm| then
          if nb = 0 then none
          else
            collect_measure c rest
              { st with bpm := nb,
                        tps := st.tps ++ [⟨pyTrunc st.time, 60000 / nb, 4⟩] }
        else collect_measure c rest st
    else if strStartsWith s "beat=" then
      match beatNum (strDrop s 5) with
      | some b => collect_measure c rest { st with beats := b }
      | none => collect_measure c rest st
    else if strContainsChar s '=' then collect_measure c rest st
    else
      (collect_measure c rest st).map (fun p => (p.1, s :: p.2.1, p.2.2))

/-- One iteration of `parse_chart_data`'s outer measure loop: collect a
measure, then process its note-data lines (via `process_measure`, i.e.
with no lookahead), or advance by a full measure duration when the
measure has lines but none with `|`, or do nothing when the measure
collected no lines at all. -/
def measure_step (c : Conv) (ls : List String) (st : BState) :
    Option (BState × List String) :=
  match collect_measure c ls st with
  | none => none
  | some (st1, mls, rest) =>
    if mls.isEmpty then some (st1, rest)
    else
      let nls := mls.filter (fun l => strContainsChar l '|')
      if nls.isEmpty then
        some ({ st1 with time := st1.time + 60000 / st1.bpm * (st1.beats : ℚ) }, rest)
      else
        let p := process_measure c nls st.time st1.bpm st1.beats st1.hold st1.hits
        some ({ st1 with time := p.1, hold := p.2.1, hits := p.2.2 }, rest)

/-- The outer measure loop, fuelled; `parse_chart_data` supplies ample
fuel (each iteration consumes at least one line). -/
def chart_loop (c : Conv) : Nat → List String → BState → Option BState
  | _, [], st => some st
  | 0, _ :: _, st => some st
  | fuel + 1, l :: rest, st =>
    match measure_step c (l :: rest) st with
    | none => none
    | some p => chart_loop c fuel p.2 p.1

/-- KSH metadata mapping. -/
def Meta : Type := String → Option String

/-- Insert into the metadata mapping, overwriting any earlier binding. -/
def metaInsert (m : Meta) (k v : String) : Meta :=
  fun x => if x = k then some v else m x

/-- Split on the first `=` (Python `split('=', 1)`). -/
def splitFirstEq (s : String) : String × String :=
  match strSplitOnChar s '=' with
  | [] => (s, "")
  | k :: rest => (k, strIntercalateChar '=' rest)

/-- Strip a leading byte-order mark from a key. -/
def bomStrip (k : String) : String :=
  if strStartsWith k "\uFEFF" then strDrop k 1 else k

/-- The scanning loop of `parse_ksh_metadata`, carrying the running
index so the returned body-start offset matches the source. -/
def parse_ksh_metadata_aux : List String → Meta → Nat → Meta × Nat
  | [], m, i => (m, i)
  | l :: rest, m, i =>
    let s := pyStrip l
    if s = "--" then (m, i + 1)
    else
      let m2 :=
        if strContainsChar s '=' ∧ ¬ strStartsWith s "#" then
          let kv := splitFirstEq s
          metaInsert m (bomStrip (pyStrip kv.1)) (pyStrip kv.2)
        else m
      parse_ksh_metadata_aux rest m2 (i + 1)

/-- `parse_ksh_metadata`: header scanning, returning the metadata
mapping and the chart-body start index. -/
def parse_ksh_metadata (lines : List String) : Meta × Nat :=
  parse_ksh_metadata_aux lines (fun _ => none) 0

/-- The initial tempo `float(meta.get('t', 120))`; `none` where the
Python `float(...)` raises on an unparsable header value. -/
def header_bpm (m : Meta) : Option ℚ :=
  match m "t" with
  | none => some 120
  | some s => pyFloat s

/-- The validated header offset: `float(raw or 0)`, falling back to 0
on a parse failure, and replaced by 0 when its magnitude exceeds
30000 ms. -/
def parsed_offset (m : Meta) : ℚ :=
  let raw := (m "o").getD "0"
  match (if raw = "" then some (0 : ℚ) else pyFloat raw) with
  | none => 0
  | some v => if 30000 < |v| then 0 else v

/-- `start_time = int(parsed_offset) + self.custom_offset_ms`. -/
def global_start_time (c : Conv) (m : Meta) : Int :=
  pyTrunc (parsed_offset m) + c.customOffset

/-- `close_remaining_holds`'s iteration over the hold table in lane
order, emitting a hold ending at `final_time` for every open entry and
clearing it. -/
def close_remaining_aux (c : Conv) :
    List (Option Int) → Nat → Int → List HitObj →
    List (Option Int) × List HitObj
  | [], _, _, hits => ([], hits)
  | o :: rest, lane, ft, hits =>
    let hits2 :=
      match o with
      | some s => hits ++ [HitObj.hold (lane_x_pos c lane) s ft]
      | none => hits
    let p := close_remaining_aux c rest (lane + 1) ft hits2
    (none :: p.1, p.2)

/-- `close_remaining_holds` applied to the loop's final state, with
`final_time = int(current_time)`. -/
def close_remaining_holds (c : Conv) (st : BState) : BState :=
  let p := close_remaining_aux c st.hold 0 (pyTrunc st.time) st.hits
  { st with hold := p.1, hits := p.2 }

/-- `parse_chart_data` up to (but not including) the final
`close_remaining_holds` call: initial tempo and offset handling, the
initial timing point, and the measure loop.  Returns `none` where the
Python code raises (unparsable or zero header tempo, zero in-measure
tempo). -/
def parse_chart_data_state (c : Conv) (m : Meta) (body : List String) :
    Option BState :=
  match header_bpm m with
  | none => none
  | some b0 =>
    if b0 = 0 then none
    else
      let startT := global_start_time c m
      chart_loop c (body.length + 1) body
        ⟨b0, 4, (startT : ℚ), List.replicate (numLanes c) none,
         [⟨startT, 60000 / b0, 4⟩], []⟩

/-- `parse_chart_data`: the full timeline builder over the chart body. -/
def parse_chart_data (c : Conv) (m : Meta) (body : List String) :
    Option BState :=
  (parse_chart_data_state c m body).map (close_remaining_holds c)

/-- Modelled from the spec (section 4.3 step 3 and claim C1): the
measure lines the *next* measure would collect, computed purely from
the upcoming raw lines.  Line classification in the collection loop is
purely syntactic, so this agrees with what `collect_measure` would
gather. -/
def peek_measure_lines : List String → List String
  | [] => []
  | l :: rest =>
    let s := pyStrip l
    if s = "--" then []
    else if s = "" then peek_measure_lines rest
    else if strStartsWith s "fx-l=" ∨ strStartsWith s "fx-r=" then
      peek_measure_lines rest
    else if strStartsWith s "t=" then peek_measure_lines rest
    else if strStartsWith s "beat=" then peek_measure_lines rest
    else if strContainsChar s '=' then peek_measure_lines rest
    else s :: peek_measure_lines rest

/-- Modelled from the spec: one outer-loop iteration of the Timeline
Builder as claim C1 describes it, i.e. with the Hold-Boundary Resolver
(`check_cross_measure_holds`) invoked at the measure boundary against
the next measure's data.  Identical to `measure_step` except that
`process_measure_with_lookahead` receives the next measure's lines
instead of `none`. -/
def measure_step_claimed (c : Conv) (ls : List String) (st : BState) :
    Option (BState × List String) :=
  match collect_measure c ls st with
  | none => none
  | some (st1, mls, rest) =>
    if mls.isEmpty then some (st1, rest)
    else
      let nls := mls.filter (fun l => strContainsChar l '|')
      if nls.isEmpty then
        some ({ st1 with time := st1.time + 60000 / st1.bpm * (st1.beats : ℚ) }, rest)
      else
        let p := process_measure_with_lookahead c nls st.time st1.bpm st1.beats
          st1.hold st1.hits (some (peek_measure_lines rest))
        some ({ st1 with time := p.1, hold := p.2.1, hits := p.2.2 }, rest)

/-- Modelled from the spec: the measure loop of the claimed pipeline. -/
def chart_loop_claimed (c : Conv) : Nat → List String → BState → Option BState
  | _, [], st => some st
  | 0, _ :: _, st => some st
  | fuel + 1, l :: rest, st =>
    match measure_step_claimed c (l :: rest) st with
    | none => none
    | some p => chart_loop_claimed c fuel p.2 p.1

/-- Modelled from the spec: `parse_chart_data` as claim C1 describes
it, invoking the Hold-Boundary Resolver at each measure boundary. -/
def parse_chart_data_claimed (c : Conv) (m : Meta) (body : List String) :
    Option BState :=
  (match header_bpm m with
   | none => none
   | some b0 =>
     if b0 = 0 then none
     else
       let startT := global_start_time c m
       chart_loop_claimed c (body.length + 1) body
         ⟨b0, 4, (startT : ℚ), List.replicate (numLanes c) none,
          [⟨startT, 60000 / b0, 4⟩], []⟩).map (close_remaining_holds c)

/-- `os.path.basename` for POSIX paths. -/
def basename (s : String) : String := (strSplitOnChar s '/').getLastD ""

/-- Python `f"{q:.6f}"`: fixed-point with six decimals. -/
def fmtQ6 (q : ℚ) : String :=
  let n := pyRound (q * 1000000)
  let a := n.natAbs
  let sign := if n < 0 then "-" else ""
  let fp := toString (a % 1000000)
  sign ++ toString (a / 1000000) ++ "." ++
    String.mk (List.replicate (6 - fp.length) '0') ++ fp

/-- Serialize one timing point to its `[TimingPoints]` line. -/
def serialize_tp (tp : TimingPoint) : String :=
  toString tp.time ++ "," ++ fmtQ6 tp.msPerBeat ++ "," ++ toString tp.meter
    ++ ",1,0,100,1,0"

/-- Serialize one hit object to its `[HitObjects]` line. -/
def serialize_hit : HitObj → String
  | .tap x t => toString x ++ ",192," ++ toString t ++ ",1,0,0:0:0:0:"
  | .hold x s e => toString x ++ ",192," ++ toString s ++ ",128,0," ++ toString e

/-- The fixed leading sections of `create_osu_content` (everything
before the `[TimingPoints]` section), filled from metadata. -/
def osu_header (c : Conv) (m : Meta) : List String :=
  let title := (m "title").getD "Untitled"
  let artist := (m "artist").getD "Unknown Artist"
  let creator := (m "effect").getD "ksh2osu"
  let difficulty := (m "difficulty").getD "converted"
  let level := (m "level").getD ""
  let version := pyStrip (difficulty ++ " " ++ level)
  let audioFile := (m "m").getD "audio.ogg"
  let illustrator := (m "illustrator").getD ""
  let keycount := if c.fourKey then "4" else "6"
  let bg := (m "bg").getD ""
  [ "osu file format v14",
    "",
    "[General]",
    "AudioFilename: " ++ basename audioFile,
    "AudioLeadIn: 0",
    "PreviewTime: -1",
    "Countdown: 0",
    "SampleSet: Normal",
    "StackLeniency: 0.7",
    "Mode: 3",
    "LetterboxInBreaks: 0",
    "SpecialStyle: 0",
    "WidescreenStoryboard: 0",
    "",
    "[Editor]",
    "DistanceSpacing: 1",
    "BeatDivisor: 4",
    "GridSize: 4",
    "TimelineZoom: 1",
    "",
    "[Metadata]",
    "Title:" ++ title,
    "TitleUnicode:" ++ title,
    "Artist:" ++ artist,
    "ArtistUnicode:" ++ artist,
    "Creator:" ++ creator,
    "Version:" ++ version ++ " " ++ keycount ++ "K",
    "Source:",
    pyStrip ("Tags:" ++ illustrator ++ " " ++ keycount ++ "K KSH"),
    "BeatmapID:0",
    "BeatmapSetID:-1",
    "",
    "[Difficulty]",
    "HPDrainRate:7",
    "CircleSize:" ++ keycount,
    "OverallDifficulty:8",
    "ApproachRate:5",
    "SliderMultiplier:1.4",
    "SliderTickRate:1",
    "",
    "[Events]",
    "//Background and Video events",
    "//Break Periods",
    "//Storyboard Layer 0 (Background)",
    "//Storyboard Layer 1 (Fail)",
    "//Storyboard Layer 2 (Pass)",
    "//Storyboard Layer 3 (Foreground)",
    "//Storyboard Layer 4 (Overlay)",
    "//Storyboard Sound Samples" ]
  ++ (if bg ≠ "" then ["0,0,\"" ++ basename bg ++ "\",0,0"] else [])

/-- The lines of the generated `.osu` document: header sections, then
the timing points in list order, then the hit objects in list order. -/
def osu_lines (c : Conv) (m : Meta) (tps : List TimingPoint)
    (hits : List HitObj) : List String :=
  osu_header c m ++ ["", "[TimingPoints]"] ++ tps.map serialize_tp
    ++ ["", "[HitObjects]"] ++ hits.map serialize_hit

/-- `create_osu_content`: the full document text. -/
def create_osu_content (c : Conv) (m : Meta) (tps : List TimingPoint)
    (hits : List HitObj) : String :=
  String.intercalate "\n" (osu_lines c m tps hits)

/-!  Specification-side definitions and invariants used by the claim
theorems. -/

/-- Checks that a chart-body line, if it is a tempo-change or
time-signature control line with a parsable value, carries a positive
value.  Used as the hypothesis under which the converter's clock is
monotone. -/
def posTempoLine (l : String) : Bool :=
  let s := pyStrip l
  (if strStartsWith s "t=" then
     match pyFloat (strDrop s 2) with
     | some q => decide (0 < q)
     | none => true
   else true) &&
  (if strStartsWith s "beat=" then
     match beatNum (strDrop s 5) with
     | some b => decide (0 < b)
     | none => true
   else true)

/-- Every open hold's start time is the truncation of a rational that
lies between the global start time and `bound`. -/
def HoldsLe (startT : Int) (bound : ℚ) (hs : List (Option Int)) : Prop :=
  ∀ lane s, holdGet hs lane = some s →
    ∃ y : ℚ, s = pyTrunc y ∧ (startT : ℚ) ≤ y ∧ y ≤ bound

/-- Every emitted hold event starts no earlier than the global start
time and ends no earlier than it starts. -/
def HitsOk (startT : Int) (hits : List HitObj) : Prop :=
  ∀ x s e, HitObj.hold x s e ∈ hits → startT ≤ s ∧ s ≤ e

/-- The timing-point list is nondecreasing in time and every entry's
time is the truncation of a rational at most `bound`. -/
def TpsOk (bound : ℚ) (tps : List TimingPoint) : Prop :=
  List.Pairwise (fun a b => a.time ≤ b.time) tps ∧
  ∀ tp ∈ tps, ∃ y : ℚ, tp.time = pyTrunc y ∧ y ≤ bound

/-- The loop invariant of the timeline builder under positive tempos:
positive tempo and time signature, clock at or after the global start
time, and the hold/hit/timing-point properties. -/
def LoopInv (startT : Int) (st : BState) : Prop :=
  0 < st.bpm ∧ 0 < st.beats ∧ (startT : ℚ) ≤ st.time ∧
  HoldsLe startT st.time st.hold ∧ HitsOk startT st.hits ∧
  TpsOk st.time st.tps

/-- Shape of the timing-point list claimed by C5 (as amended): nonempty,
headed by the initial marker, and with every meter field equal to the
constant 4. -/
def TpsShape (tp0 : TimingPoint) (tps : List TimingPoint) : Prop :=
  tps ≠ [] ∧ tps.head? = some tp0 ∧ ∀ tp ∈ tps, tp.meter = 4

/-- The parsed value of a tempo-change line that qualifies for a new
Tempo Marker against the running tempo `bpm`: the line's trimmed form
begins with `t=`, its value parses, and it differs from `bpm` by more
than `0.001` (the test at ksh2osu.py line 138). -/
def tempoChangeVal (bpm : ℚ) (l : String) : Option ℚ :=
  if strStartsWith (pyStrip l) "t=" then
    match pyFloat (strDrop (pyStrip l) 2) with
    | some nb => if 1/1000 < |nb - bpm| then some nb else none
    | none => none
  else none

/-- The Tempo Markers one measure's collection contributes, in the
claim C5 reading: among the lines up to the measure's `--` delimiter,
exactly the qualifying tempo changes (parsed value more than `0.001`
away from the running tempo) each yield one marker stamped at the
measure's start time `t0` and encoding `60000 /` the new tempo, with
meter field `4`; each such change updates the running tempo. -/
def measure_tempo_markers (t0 : Int) (bpm : ℚ) :
    List String → List TimingPoint
  | [] => []
  | l :: rest =>
    if pyStrip l = "--" then []
    else
      match tempoChangeVal bpm l with
      | some nb => ⟨t0, 60000 / nb, 4⟩ :: measure_tempo_markers t0 nb rest
      | none => measure_tempo_markers t0 bpm rest

/-- The data of a note-data line actually consulted by per-line note
processing and by the boundary lookahead: the first four characters of
the first segment, the first two characters of the second segment, and
whether the line contains a separator at all. -/
def seg_key (l : String) : List Char × List Char × Bool :=
  ((btPart l).toList.take 4, (fxPart l).toList.take 2, strContainsChar l '|')

/-- Start time of a hit object (the third field of its emitted line). -/
def hit_start_time : HitObj → Int
  | .tap _ t => t
  | .hold _ s _ => s

/-- Spec-side reading of one header line (claim C9 as amended): a line
whose trimmed form contains `=` and does not begin with `#` yields the
pair of trimmed, BOM-stripped key and trimmed value; other lines yield
nothing. -/
def spec_parse_line (l : String) : Option (String × String) :=
  let s := pyStrip l
  if strContainsChar s '=' ∧ ¬ strStartsWith s "#" then
    some (bomStrip (pyStrip (splitFirstEq s).1), pyStrip (splitFirstEq s).2)
  else none

/-- Spec-side metadata lookup: among the lines before the first `--`
delimiter, the value of the last line parsing to the requested key. -/
def spec_meta_lookup (lines : List String) (k : String) : Option String :=
  (((lines.takeWhile (fun l => pyStrip l ≠ "--")).reverse.filterMap
      spec_parse_line).find? (fun p => p.1 = k)).map (fun p => p.2)

/-- First-some choice on options. -/
def optOr (a b : Option String) : Option String :=
  match a with
  | some v => some v
  | none => b

/-!  Concrete instances used by counterexamples and witnesses. -/

/-- The default converter configuration: 6K mode, no manual offset. -/
def conv6 : Conv := ⟨false, 0⟩

/-- An empty metadata mapping (all defaults). -/
def meta0 : Meta := fun _ => none

/-- A metadata mapping whose header tempo field is unparsable. -/
def metaBadTempo : Meta := fun k => if k = "t" then some "abc" else none

/-- A builder state at the defaults (tempo 120, 4/4, time 0). -/
def demoSt : BState := ⟨120, 4, 0, List.replicate 6 none, [], []⟩

/-- What one run of the collection loop guarantees: the clock, hold
table and hit objects are untouched; the timing-point list is extended
at the tail by markers stamped at the truncation of the measure's start
time with meter field 4; the remaining lines come from the input; and
positive tempo/time-signature values are preserved when every control
line in the input carries positive values. -/
def CollectSpec (_c : Conv) (ls : List String) (st st1 : BState)
    (_mls rest : List String) : Prop :=
  st1.time = st.time ∧ st1.hold = st.hold ∧ st1.hits = st.hits ∧
  (∃ ts, st1.tps = st.tps ++ ts ∧
    ∀ tp ∈ ts, tp.time = pyTrunc st.time ∧ tp.meter = 4) ∧
  (∀ l2 ∈ rest, l2 ∈ ls) ∧
  ((∀ l2 ∈ ls, posTempoLine l2 = true) →
    (0 < st.bpm → 0 < st1.bpm) ∧ (0 < st.beats → 0 < st1.beats))

/-!  Basic lemmas about the numeric helpers and the hold-state table. -/

theorem pyTrunc_intCast (n : Int) : pyTrunc (n : ℚ) = n := by
  unfold pyTrunc
  split
  · exact Int.floor_intCast n
  · exact Int.ceil_intCast n

theorem pyTrunc_mono {q r : ℚ} (h : q ≤ r) : pyTrunc q ≤ pyTrunc r := by
  unfold pyTrunc
  by_cases hq : 0 ≤ q
  · rw [if_pos hq, if_pos (le_trans hq h)]
    exact Int.floor_le_floor h
  · by_cases hr : 0 ≤ r
    · rw [if_neg hq, if_pos hr]
      have h1 : ⌈q⌉ ≤ 0 :=
        Int.ceil_le.mpr (by exact_mod_cast le_of_lt (lt_of_not_le hq))
      have h2 : 0 ≤ ⌊r⌋ := Int.floor_nonneg.mpr hr
      omega
    · rw [if_neg hq, if_neg hr]
      exact Int.ceil_le_ceil h

theorem le_pyTrunc {n : Int} {q : ℚ} (h : (n : ℚ) ≤ q) : n ≤ pyTrunc q := by
  unfold pyTrunc
  split
  · exact Int.le_floor.mpr h
  · exact_mod_cast le_trans h (Int.le_ceil q)

theorem holdGet_holdSet (hs : List (Option Int)) (i j : Nat) (v : Option Int) :
    holdGet (holdSet hs i v) j =
      if j = i ∧ i < hs.length then v else holdGet hs j := by
  induction hs generalizing i j with
  | nil => simp [holdGet, holdSet]
  | cons a t ih =>
    cases i with
    | zero =>
      cases j with
      | zero => simp [holdGet, holdSet]
      | succ j => simp [holdGet, holdSet, List.getD]
    | succ i =>
      cases j with
      | zero => simp [holdGet, holdSet, List.getD]
      | succ j =>
        have := ih i j
        simp only [holdSet, List.set] at this ⊢
        simp only [holdGet, List.getD_cons_succ] at this ⊢
        rw [this]
        by_cases hji : j = i
        · subst hji
          by_cases hlen : j < t.length
          · rw [if_pos ⟨rfl, hlen⟩, if_pos ⟨rfl, by simpa using Nat.succ_lt_succ hlen⟩]
          · rw [if_neg (by tauto), if_neg (by simp; omega)]
        · rw [if_neg (by tauto), if_neg (by simp; omega)]

theorem holdsLe_mono {startT : Int} {b b2 : ℚ} {hs : List (Option Int)}
    (h : HoldsLe startT b hs) (hb : b ≤ b2) : HoldsLe startT b2 hs := by
  intro lane s hg
  obtain ⟨y, hy, h1, h2⟩ := h lane s hg
  exact ⟨y, hy, h1, le_trans h2 hb⟩

theorem holdsLe_set_none {startT : Int} {b : ℚ} {hs : List (Option Int)}
    (h : HoldsLe startT b hs) (lane : Nat) :
    HoldsLe startT b (holdSet hs lane none) := by
  intro lane2 s hg
  rw [holdGet_holdSet] at hg
  by_cases hc : lane2 = lane ∧ lane < hs.length
  · rw [if_pos hc] at hg; exact absurd hg (by simp)
  · rw [if_neg hc] at hg; exact h lane2 s hg

theorem holdsLe_set_open {startT : Int} {b : ℚ} {hs : List (Option Int)}
    (h : HoldsLe startT b hs) (lane : Nat) {X : ℚ}
    (h1 : (startT : ℚ) ≤ X) (h2 : X ≤ b) :
    HoldsLe startT b (holdSet hs lane (some (pyTrunc X))) := by
  intro lane2 s hg
  rw [holdGet_holdSet] at hg
  by_cases hc : lane2 = lane ∧ lane < hs.length
  · rw [if_pos hc] at hg
    obtain rfl : pyTrunc X = s := by simpa using hg
    exact ⟨X, rfl, h1, h2⟩
  · rw [if_neg hc] at hg; exact h lane2 s hg

theorem hitsOk_append_tap {startT : Int} {hits : List HitObj} {x t : Int}
    (h : HitsOk startT hits) : HitsOk startT (hits ++ [HitObj.tap x t]) := by
  intro x2 s2 e2 hmem
  rcases List.mem_append.mp hmem with hm | hm
  · exact h x2 s2 e2 hm
  · simp at hm

theorem hitsOk_append_hold {startT : Int} {hits : List HitObj} {x s e : Int}
    (h : HitsOk startT hits) (h1 : startT ≤ s) (h2 : s ≤ e) :
    HitsOk startT (hits ++ [HitObj.hold x s e]) := by
  intro x2 s2 e2 hmem
  rcases List.mem_append.mp hmem with hm | hm
  · exact h x2 s2 e2 hm
  · simp at hm
    obtain ⟨rfl, rfl, rfl⟩ := hm
    exact ⟨h1, h2⟩

theorem hitsOk_append_hold_tap {startT : Int} {hits : List HitObj}
    {x s e xt t : Int} (h : HitsOk startT hits) (h1 : startT ≤ s) (h2 : s ≤ e) :
    HitsOk startT (hits ++ [HitObj.hold x s e, HitObj.tap xt t]) := by
  intro x2 s2 e2 hmem
  rcases List.mem_append.mp hmem with hm | hm
  · exact h x2 s2 e2 hm
  · simp at hm
    obtain ⟨rfl, rfl, rfl⟩ := hm
    exact ⟨h1, h2⟩

theorem process_bt_note_inv (c : Conv) (ch : Char) (idx : Nat) {startT : Int}
    {X : ℚ} {hs : List (Option Int)} {hits : List HitObj}
    (hhs : HoldsLe startT X hs) (hh : HitsOk startT hits)
    (hX : (startT : ℚ) ≤ X) :
    HoldsLe startT X (process_bt_note c ch idx (pyTrunc X) hs hits).1 ∧
    HitsOk startT (process_bt_note c ch idx (pyTrunc X) hs hits).2 := by
  unfold process_bt_note
  cases hlane : ksh_to_osu_lane c false idx with
  | none => exact ⟨hhs, hh⟩
  | some lane =>
    dsimp only
    by_cases h1 : ch = '1'
    · simp only [h1, if_pos rfl]
      cases hg : holdGet hs lane with
      | none => exact ⟨hhs, hitsOk_append_tap hh⟩
      | some s =>
        obtain ⟨y, rfl, hy1, hy2⟩ := hhs lane s hg
        exact ⟨holdsLe_set_none hhs lane,
          hitsOk_append_hold_tap hh (le_pyTrunc hy1) (pyTrunc_mono hy2)⟩
    · rw [if_neg h1]
      by_cases h2 : ch = '2'
      · simp only [h2, if_pos rfl]
        cases hg : holdGet hs lane with
        | none => exact ⟨holdsLe_set_open hhs lane hX (le_refl X), hh⟩
        | some s => exact ⟨hhs, hh⟩
      · rw [if_neg h2]
        by_cases h0 : ch = '0' ∨ ch = ' '
        · rw [if_pos h0]
          cases hg : holdGet hs lane with
          | none => exact ⟨hhs, hh⟩
          | some s =>
            obtain ⟨y, rfl, hy1, hy2⟩ := hhs lane s hg
            exact ⟨holdsLe_set_none hhs lane,
              hitsOk_append_hold hh (le_pyTrunc hy1) (pyTrunc_mono hy2)⟩
        · rw [if_neg h0]; exact ⟨hhs, hh⟩

theorem process_fx_note_inv (c : Conv) (ch : Char) (idx : Nat) {startT : Int}
    {X : ℚ} {hs : List (Option Int)} {hits : List HitObj}
    (hhs : HoldsLe startT X hs) (hh : HitsOk startT hits)
    (hX : (startT : ℚ) ≤ X) :
    HoldsLe startT X (process_fx_note c ch idx (pyTrunc X) hs hits).1 ∧
    HitsOk startT (process_fx_note c ch idx (pyTrunc X) hs hits).2 := by
  unfold process_fx_note
  cases hlane : ksh_to_osu_lane c true idx with
  | none => exact ⟨hhs, hh⟩
  | some lane =>
    dsimp only
    by_cases h1 : ch = '2'
    · simp only [h1, if_pos rfl]
      cases hg : holdGet hs lane with
      | none => exact ⟨hhs, hitsOk_append_tap hh⟩
      | some s =>
        obtain ⟨y, rfl, hy1, hy2⟩ := hhs lane s hg
        exact ⟨holdsLe_set_none hhs lane,
          hitsOk_append_hold_tap hh (le_pyTrunc hy1) (pyTrunc_mono hy2)⟩
    · rw [if_neg h1]
      by_cases h2 : ch = '1'
      · simp only [h2, if_pos rfl]
        cases hg : holdGet hs lane with
        | none => exact ⟨holdsLe_set_open hhs lane hX (le_refl X), hh⟩
        | some s => exact ⟨hhs, hh⟩
      · rw [if_neg h2]
        by_cases h0 : ch = '0' ∨ ch = ' '
        · rw [if_pos h0]
          cases hg : holdGet hs lane with
          | none => exact ⟨hhs, hh⟩
          | some s =>
            obtain ⟨y, rfl, hy1, hy2⟩ := hhs lane s hg
            exact ⟨holdsLe_set_none hhs lane,
              hitsOk_append_hold hh (le_pyTrunc hy1) (pyTrunc_mono hy2)⟩
        · rw [if_neg h0]; exact ⟨hhs, hh⟩

theorem process_seg_inv (c : Conv) (isFx : Bool) (limit : Nat)
    (chars : List Char) (idx : Nat) {startT : Int} {X : ℚ}
    {hs : List (Option Int)} {hits : List HitObj}
    (hhs : HoldsLe startT X hs) (hh : HitsOk startT hits)
    (hX : (startT : ℚ) ≤ X) :
    HoldsLe startT X (process_seg c isFx limit chars idx (pyTrunc X) hs hits).1 ∧
    HitsOk startT (process_seg c isFx limit chars idx (pyTrunc X) hs hits).2 := by
  induction chars generalizing idx hs hits with
  | nil => exact ⟨hhs, hh⟩
  | cons ch rest ih =>
    rw [process_seg]
    split
    · exact ⟨hhs, hh⟩
    · cases isFx with
      | false =>
        have step := process_bt_note_inv c ch idx hhs hh hX
        simpa using ih (idx + 1) step.1 step.2
      | true =>
        have step := process_fx_note_inv c ch idx hhs hh hX
        simpa using ih (idx + 1) step.1 step.2

theorem process_note_line_inv (c : Conv) (l : String) {startT : Int} {X : ℚ}
    {hs : List (Option Int)} {hits : List HitObj}
    (hhs : HoldsLe startT X hs) (hh : HitsOk startT hits)
    (hX : (startT : ℚ) ≤ X) :
    HoldsLe startT X (process_note_line c l (pyTrunc X) hs hits).1 ∧
    HitsOk startT (process_note_line c l (pyTrunc X) hs hits).2 := by
  unfold process_note_line
  have h1 := process_seg_inv c false 4 (btPart l).toList 0 hhs hh hX
  exact process_seg_inv c true 2 (fxPart l).toList 0 h1.1 h1.2 hX

theorem process_lines_inv (c : Conv) (ls : List String) (k : Nat)
    (start ld : ℚ) {startT : Int} {hs : List (Option Int)} {hits : List HitObj}
    (hld : 0 ≤ ld) (hstart : (startT : ℚ) ≤ start + (k : ℚ) * ld)
    (hhs : HoldsLe startT (start + (k : ℚ) * ld) hs) (hh : HitsOk startT hits) :
    HoldsLe startT (start + ((k : ℚ) + (ls.length : ℚ)) * ld)
      (process_lines c ls k start ld hs hits).1 ∧
    HitsOk startT (process_lines c ls k start ld hs hits).2 := by
  induction ls generalizing k hs hits with
  | nil =>
    refine ⟨?_, hh⟩
    simpa using hhs
  | cons l rest ih =>
    rw [process_lines]
    have step := process_note_line_inv c l hhs hh hstart
    have hmono : start + (k : ℚ) * ld ≤ start + ((k : ℚ) + 1) * ld := by
      nlinarith [hld]
    have hcast : ((k + 1 : ℕ) : ℚ) = (k : ℚ) + 1 := by push_cast; ring
    have hstart2 : (startT : ℚ) ≤ start + ((k + 1 : ℕ) : ℚ) * ld := by
      rw [hcast]; exact le_trans hstart hmono
    have hhs2 : HoldsLe startT (start + ((k + 1 : ℕ) : ℚ) * ld)
        (process_note_line c l (pyTrunc (start + (k : ℚ) * ld)) hs hits).1 := by
      rw [hcast]; exact holdsLe_mono step.1 hmono
    have hrec := ih (k + 1) hstart2 hhs2 step.2
    rw [hcast] at hrec
    have hbound : start + (((k : ℚ) + 1) + (rest.length : ℚ)) * ld =
        start + ((k : ℚ) + ((rest.length : ℚ) + 1)) * ld := by ring
    rw [hbound] at hrec
    simpa [List.length_cons, Nat.cast_add, Nat.cast_one, add_comm] using hrec

theorem process_measure_inv (c : Conv) (nls : List String) (start bpm : ℚ)
    (beats : Int) {startT : Int} {hs : List (Option Int)} {hits : List HitObj}
    (hne : nls ≠ []) (hbpm : 0 < bpm) (hbeats : 0 < beats)
    (hstart : (startT : ℚ) ≤ start)
    (hhs : HoldsLe startT start hs) (hh : HitsOk startT hits) :
    (process_measure c nls start bpm beats hs hits).1 =
      start + 60000 / bpm * (beats : ℚ) ∧
    HoldsLe startT (start + 60000 / bpm * (beats : ℚ))
      (process_measure c nls start bpm beats hs hits).2.1 ∧
    HitsOk startT (process_measure c nls start bpm beats hs hits).2.2 := by
  unfold process_measure process_measure_with_lookahead
  rw [if_neg (by simpa [List.isEmpty_iff] using hne)]
  dsimp only
  have hn : (0 : ℚ) < (nls.length : ℚ) := by
    have : 0 < nls.length := List.length_pos.mpr hne
    exact_mod_cast this
  have hdur : 0 ≤ 60000 / bpm * (beats : ℚ) := by
    have h1 : (0 : ℚ) < 60000 / bpm := by positivity
    have h2 : (0 : ℚ) < (beats : ℚ) := by exact_mod_cast hbeats
    positivity
  have hld : 0 ≤ 60000 / bpm * (beats : ℚ) / (nls.length : ℚ) := by positivity
  have h0 : start + ((0 : ℕ) : ℚ) * (60000 / bpm * (beats : ℚ) / (nls.length : ℚ)) = start := by
    push_cast; ring
  have hlines := process_lines_inv c nls 0 start
    (60000 / bpm * (beats : ℚ) / (nls.length : ℚ))
    hld (by rw [h0]; exact hstart) (by rw [h0]; exact hhs) hh
  have hfull : start + (((0 : ℕ) : ℚ) + (nls.length : ℚ)) *
      (60000 / bpm * (beats : ℚ) / (nls.length : ℚ)) =
      start + 60000 / bpm * (beats : ℚ) := by
    field_simp
    ring
  rw [hfull] at hlines
  exact ⟨rfl, hlines.1, hlines.2⟩

theorem collectSpec_cons (c : Conv) (l : String) (tail : List String)
    {st st1 : BState} {mls rest : List String}
    (h : CollectSpec c tail st st1 mls rest) :
    CollectSpec c (l :: tail) st st1 mls rest := by
  obtain ⟨h1, h2, h3, h4, h5, h6⟩ := h
  exact ⟨h1, h2, h3, h4,
    fun x hx => List.mem_cons_of_mem _ (h5 x hx),
    fun hp => h6 (fun x hx => hp x (List.mem_cons_of_mem _ hx))⟩

theorem collectSpec_tempo (c : Conv) (l : String) (tail : List String)
    {st st1 : BState} {mls rest : List String} {nb : ℚ}
    (hl : strStartsWith (pyStrip l) "t=" = true)
    (hpf : pyFloat (strDrop (pyStrip l) 2) = some nb)
    (h : CollectSpec c tail
      { st with bpm := nb,
                tps := st.tps ++ [⟨pyTrunc st.time, 60000 / nb, 4⟩] }
      st1 mls rest) :
    CollectSpec c (l :: tail) st st1 mls rest := by
  obtain ⟨h1, h2, h3, ⟨ts, hts, htsmem⟩, h5, h6⟩ := h
  refine ⟨h1, h2, h3,
    ⟨⟨pyTrunc st.time, 60000 / nb, 4⟩ :: ts, ?_, ?_⟩,
    fun x hx => List.mem_cons_of_mem _ (h5 x hx), ?_⟩
  · rw [hts]; simp
  · intro tp htp
    rcases List.mem_cons.mp htp with hhd | htl
    · subst hhd; exact ⟨rfl, rfl⟩
    · exact htsmem tp htl
  · intro hp
    have hnb : 0 < nb := by
      have hpl := hp l (List.mem_cons_self _ _)
      simp only [posTempoLine, Bool.and_eq_true] at hpl
      obtain ⟨hA, _⟩ := hpl
      rw [if_pos hl, hpf] at hA
      exact of_decide_eq_true hA
    have hrec := h6 (fun x hx => hp x (List.mem_cons_of_mem _ hx))
    exact ⟨fun _ => hrec.1 hnb, hrec.2⟩

theorem collectSpec_beat (c : Conv) (l : String) (tail : List String)
    {st st1 : BState} {mls rest : List String} {b : Int}
    (hl : strStartsWith (pyStrip l) "beat=" = true)
    (hb : beatNum (strDrop (pyStrip l) 5) = some b)
    (h : CollectSpec c tail { st with beats := b } st1 mls rest) :
    CollectSpec c (l :: tail) st st1 mls rest := by
  obtain ⟨h1, h2, h3, h4, h5, h6⟩ := h
  refine ⟨h1, h2, h3, h4,
    fun x hx => List.mem_cons_of_mem _ (h5 x hx), ?_⟩
  intro hp
  have hpos : 0 < b := by
    have hpl := hp l (List.mem_cons_self _ _)
    simp only [posTempoLine, Bool.and_eq_true] at hpl
    obtain ⟨_, hB⟩ := hpl
    rw [if_pos hl, hb] at hB
    exact of_decide_eq_true hB
  have hrec := h6 (fun x hx => hp x (List.mem_cons_of_mem _ hx))
  exact ⟨hrec.1, fun _ => hrec.2 hpos⟩

theorem collect_measure_spec (c : Conv) (ls : List String) :
    ∀ (st st1 : BState) (mls rest : List String),
    collect_measure c ls st = some (st1, mls, rest) →
    CollectSpec c ls st st1 mls rest := by
  induction ls with
  | nil =>
    intro st st1 mls rest h
    simp only [collect_measure, Option.some.injEq, Prod.mk.injEq] at h
    obtain ⟨rfl, rfl, rfl⟩ := h
    exact ⟨rfl, rfl, rfl, ⟨[], by simp, by simp⟩, by simp,
      fun _ => ⟨id, id⟩⟩
  | cons l tail ih =>
    intro st st1 mls rest h
    rw [collect_measure] at h
    split at h
    · simp only [Option.some.injEq, Prod.mk.injEq] at h
      obtain ⟨rfl, rfl, rfl⟩ := h
      exact ⟨rfl, rfl, rfl, ⟨[], by simp, by simp⟩,
        fun x hx => List.mem_cons_of_mem _ hx, fun _ => ⟨id, id⟩⟩
    · split at h
      · exact collectSpec_cons c l tail (ih _ _ _ _ h)
      · split at h
        · exact collectSpec_cons c l tail (ih _ _ _ _ h)
        · split at h
          · rename_i ht
            split at h
            · exact collectSpec_cons c l tail (ih _ _ _ _ h)
            · rename_i nb hpf
              split at h
              · split at h
                · cases h
                · exact collectSpec_tempo c l tail ht hpf (ih _ _ _ _ h)
              · exact collectSpec_cons c l tail (ih _ _ _ _ h)
          · split at h
            · rename_i hbeat
              split at h
              · rename_i b hb
                exact collectSpec_beat c l tail hbeat hb (ih _ _ _ _ h)
              · exact collectSpec_cons c l tail (ih _ _ _ _ h)
            · split at h
              · exact collectSpec_cons c l tail (ih _ _ _ _ h)
              · rw [Option.map_eq_some'] at h
                obtain ⟨⟨st2, mls2, rest2⟩, hcol, hmap⟩ := h
                simp only [Prod.mk.injEq] at hmap
                obtain ⟨rfl, hmls, rfl⟩ := hmap
                exact collectSpec_cons c l tail (ih st st2 mls2 rest2 hcol)

theorem pairwise_time_const {T : Int} {ts : List TimingPoint}
    (h : ∀ tp ∈ ts, tp.time = T) :
    List.Pairwise (fun a b : TimingPoint => a.time ≤ b.time) ts := by
  induction ts with
  | nil => exact List.Pairwise.nil
  | cons a t ih =>
    refine List.Pairwise.cons ?_ (ih fun tp htp => h tp (List.mem_cons_of_mem _ htp))
    intro b hb
    rw [h a (List.mem_cons_self _ _), h b (List.mem_cons_of_mem _ hb)]

theorem tpsOk_mono {b b2 : ℚ} {tps : List TimingPoint}
    (h : TpsOk b tps) (hb : b ≤ b2) : TpsOk b2 tps := by
  refine ⟨h.1, fun tp htp => ?_⟩
  obtain ⟨y, hy, hyb⟩ := h.2 tp htp
  exact ⟨y, hy, le_trans hyb hb⟩

theorem tpsOk_append {b : ℚ} {tps ts : List TimingPoint}
    (h : TpsOk b tps) (hts : ∀ tp ∈ ts, tp.time = pyTrunc b) :
    TpsOk b (tps ++ ts) := by
  constructor
  · rw [List.pairwise_append]
    refine ⟨h.1, pairwise_time_const hts, ?_⟩
    intro a ha x hx
    obtain ⟨y, hy, hyb⟩ := h.2 a ha
    rw [hy, hts x hx]
    exact pyTrunc_mono hyb
  · intro tp htp
    rcases List.mem_append.mp htp with hm | hm
    · exact h.2 tp hm
    · exact ⟨b, hts tp hm, le_refl b⟩

theorem measure_step_inv (c : Conv) (ls : List String) {startT : Int}
    {st st1 : BState} {rest : List String}
    (hpos : ∀ l ∈ ls, posTempoLine l = true)
    (h : measure_step c ls st = some (st1, rest))
    (hinv : LoopInv startT st) :
    LoopInv startT st1 ∧ ∀ l ∈ rest, l ∈ ls := by
  obtain ⟨hbpm, hbeats, htime, hholds, hhits, htps⟩ := hinv
  unfold measure_step at h
  cases hcol : collect_measure c ls st with
  | none => rw [hcol] at h; cases h
  | some trip =>
    rw [hcol] at h
    obtain ⟨stc, mls, restc⟩ := trip
    obtain ⟨ht, hhold, hhit, ⟨ts, htps1, htsmem⟩, hrest, hposc⟩ :=
      collect_measure_spec c ls st stc mls restc hcol
    have hbpc : 0 < stc.bpm := (hposc hpos).1 hbpm
    have hbtc : 0 < stc.beats := (hposc hpos).2 hbeats
    have htpsc : TpsOk st.time stc.tps := by
      rw [htps1]
      exact tpsOk_append htps (fun tp htp => (htsmem tp htp).1)
    have hdur : 0 ≤ 60000 / stc.bpm * (stc.beats : ℚ) := by
      have h1 : (0 : ℚ) < 60000 / stc.bpm := by positivity
      have h2 : (0 : ℚ) < (stc.beats : ℚ) := by exact_mod_cast hbtc
      positivity
    dsimp only at h
    by_cases hml : mls.isEmpty
    · rw [if_pos hml] at h
      simp only [Option.some.injEq, Prod.mk.injEq] at h
      obtain ⟨rfl, rfl⟩ := h
      refine ⟨⟨hbpc, hbtc, ?_, ?_, ?_, ?_⟩, hrest⟩
      · rw [ht]; exact htime
      · rw [ht, hhold]; exact hholds
      · rw [hhit]; exact hhits
      · rw [ht]; exact htpsc
    · rw [if_neg hml] at h
      by_cases hnl : (mls.filter (fun l => strContainsChar l '|')).isEmpty
      · rw [if_pos hnl] at h
        simp only [Option.some.injEq, Prod.mk.injEq] at h
        obtain ⟨rfl, rfl⟩ := h
        refine ⟨⟨hbpc, hbtc, ?_, ?_, ?_, ?_⟩, hrest⟩
        · dsimp only
          rw [ht]
          calc (startT : ℚ) ≤ st.time := htime
            _ ≤ st.time + 60000 / stc.bpm * (stc.beats : ℚ) := by linarith
        · dsimp only
          rw [ht, hhold]
          exact holdsLe_mono hholds (by linarith)
        · dsimp only
          rw [hhit]; exact hhits
        · dsimp only
          rw [ht]
          exact tpsOk_mono htpsc (by linarith)
      · rw [if_neg hnl] at h
        simp only [Option.some.injEq, Prod.mk.injEq] at h
        obtain ⟨rfl, rfl⟩ := h
        have hne : mls.filter (fun l => strContainsChar l '|') ≠ [] := by
          simpa [List.isEmpty_iff] using hnl
        have hpm := process_measure_inv c (mls.filter (fun l => strContainsChar l '|'))
          st.time stc.bpm stc.beats hne hbpc hbtc htime
          (hhold ▸ hholds) (hhit ▸ hhits)
        refine ⟨⟨hbpc, hbtc, ?_, ?_, ?_, ?_⟩, hrest⟩
        · dsimp only
          rw [hpm.1]
          calc (startT : ℚ) ≤ st.time := htime
            _ ≤ st.time + 60000 / stc.bpm * (stc.beats : ℚ) := by linarith
        · dsimp only
          rw [hpm.1]
          exact hpm.2.1
        · exact hpm.2.2
        · dsimp only
          rw [hpm.1]
          exact tpsOk_mono htpsc (by linarith)

theorem chart_loop_inv (c : Conv) (fuel : Nat) :
    ∀ (ls : List String) {startT : Int} {st st1 : BState},
    (∀ l ∈ ls, posTempoLine l = true) →
    chart_loop c fuel ls st = some st1 →
    LoopInv startT st → LoopInv startT st1 := by
  induction fuel with
  | zero =>
    intro ls startT st st1 hpos h hinv
    cases ls with
    | nil => cases h; exact hinv
    | cons l tail => cases h; exact hinv
  | succ n ih =>
    intro ls startT st st1 hpos h hinv
    cases ls with
    | nil => cases h; exact hinv
    | cons l tail =>
      rw [chart_loop] at h
      cases hms : measure_step c (l :: tail) st with
      | none => rw [hms] at h; cases h
      | some p =>
        rw [hms] at h
        have hstep := measure_step_inv c (l :: tail) hpos hms hinv
        exact ih p.2 (fun x hx => hpos x (hstep.2 x hx)) h hstep.1

theorem holdGet_replicate (n lane : Nat) :
    holdGet (List.replicate n none) lane = none := by
  unfold holdGet
  induction n generalizing lane with
  | zero => simp
  | succ k ih =>
    cases lane with
    | zero => simp [List.replicate]
    | succ j => simp only [List.replicate]; exact ih j

theorem parse_state_elim {c : Conv} {m : Meta} {body : List String}
    {st : BState} (h : parse_chart_data_state c m body = some st) :
    ∃ b0, header_bpm m = some b0 ∧ b0 ≠ 0 ∧
      chart_loop c (body.length + 1) body
        ⟨b0, 4, (global_start_time c m : ℚ), List.replicate (numLanes c) none,
         [⟨global_start_time c m, 60000 / b0, 4⟩], []⟩ = some st := by
  unfold parse_chart_data_state at h
  cases hb : header_bpm m with
  | none => rw [hb] at h; cases h
  | some b0 =>
    rw [hb] at h
    dsimp only at h
    by_cases hz : b0 = 0
    · rw [if_pos hz] at h; cases h
    · rw [if_neg hz] at h; exact ⟨b0, rfl, hz, h⟩

theorem loopInv_init (c : Conv) (m : Meta) {b0 : ℚ} (hb : 0 < b0) :
    LoopInv (global_start_time c m)
      ⟨b0, 4, (global_start_time c m : ℚ), List.replicate (numLanes c) none,
       [⟨global_start_time c m, 60000 / b0, 4⟩], []⟩ := by
  refine ⟨hb, by norm_num, le_refl _, ?_, ?_, ?_⟩
  · intro lane s hg
    rw [holdGet_replicate] at hg
    cases hg
  · intro x s e hmem
    cases hmem
  · refine ⟨List.pairwise_singleton _ _, ?_⟩
    intro tp htp
    rcases List.mem_singleton.mp htp with rfl
    exact ⟨(global_start_time c m : ℚ), (pyTrunc_intCast _).symm, le_refl _⟩

theorem close_remaining_aux_spec (c : Conv) (ls : List (Option Int)) :
    ∀ (lane : Nat) (ft : Int) (hits : List HitObj),
    (close_remaining_aux c ls lane ft hits).1 = List.replicate ls.length none ∧
    (∀ h ∈ hits, h ∈ (close_remaining_aux c ls lane ft hits).2) ∧
    (∀ j s, ls.getD j none = some s →
      HitObj.hold (lane_x_pos c (lane + j)) s ft ∈
        (close_remaining_aux c ls lane ft hits).2) ∧
    (∀ x s e, HitObj.hold x s e ∈ (close_remaining_aux c ls lane ft hits).2 →
      HitObj.hold x s e ∈ hits ∨ (e = ft ∧ ∃ j, ls.getD j none = some s)) := by
  induction ls with
  | nil =>
    intro lane ft hits
    refine ⟨rfl, fun h hm => hm, ?_, ?_⟩
    · intro j s hj; simp at hj
    · intro x s e hm; exact Or.inl hm
  | cons o rest ih =>
    intro lane ft hits
    cases o with
    | none =>
      obtain ⟨ihr, ihm, ihget, ihinv⟩ := ih (lane + 1) ft hits
      rw [close_remaining_aux]
      refine ⟨by rw [List.length_cons, List.replicate_succ]; exact congrArg _ ihr,
        ihm, ?_, ?_⟩
      · intro j s hj
        cases j with
        | zero => simp [List.getD] at hj
        | succ j =>
          have := ihget j s (by simpa [List.getD] using hj)
          simpa [Nat.add_assoc, Nat.add_comm 1 j] using this
      · intro x s e hm
        rcases ihinv x s e hm with hin | ⟨he, j, hj⟩
        · exact Or.inl hin
        · exact Or.inr ⟨he, j + 1, by simpa [List.getD] using hj⟩
    | some v =>
      obtain ⟨ihr, ihm, ihget, ihinv⟩ :=
        ih (lane + 1) ft (hits ++ [HitObj.hold (lane_x_pos c lane) v ft])
      rw [close_remaining_aux]
      refine ⟨by rw [List.length_cons, List.replicate_succ]; exact congrArg _ ihr,
        ?_, ?_, ?_⟩
      · intro h hm
        exact ihm h (List.mem_append.mpr (Or.inl hm))
      · intro j s hj
        cases j with
        | zero =>
          simp only [List.getD_cons_zero, Option.some.injEq] at hj
          subst hj
          have hmem2 : HitObj.hold (lane_x_pos c lane) v ft ∈
              hits ++ [HitObj.hold (lane_x_pos c lane) v ft] := by simp
          simpa using ihm _ hmem2
        | succ j =>
          have := ihget j s (by simpa [List.getD] using hj)
          simpa [Nat.add_assoc, Nat.add_comm 1 j] using this
      · intro x s e hm
        rcases ihinv x s e hm with hin | ⟨he, j, hj⟩
        · rcases List.mem_append.mp hin with h1 | h1
          · exact Or.inl h1
          · simp only [List.mem_singleton] at h1
            obtain ⟨rfl, rfl, rfl⟩ := HitObj.hold.inj h1
            exact Or.inr ⟨rfl, 0, rfl⟩
        · exact Or.inr ⟨he, j + 1, by simpa [List.getD] using hj⟩

/-- C3: for every chart (any metadata, body and column mode) on which
the timeline builder finishes, the final `close_remaining_holds` pass
leaves the hold-state table fully empty, and every column whose hold
was still open after the last measure gets a hold event whose end time
is the final computed time `int(current_time)` — no open hold is
dropped. -/
theorem c3_hold_table_drained (c : Conv) (m : Meta) (body : List String)
    (st : BState) (h : parse_chart_data_state c m body = some st) :
    parse_chart_data c m body = some (close_remaining_holds c st) ∧
    (∀ lane, holdGet (close_remaining_holds c st).hold lane = none) ∧
    (∀ lane s, holdGet st.hold lane = some s →
      HitObj.hold (lane_x_pos c lane) s (pyTrunc st.time) ∈
        (close_remaining_holds c st).hits) := by
  obtain ⟨spec1, _, spec3, _⟩ :=
    close_remaining_aux_spec c st.hold 0 (pyTrunc st.time) st.hits
  refine ⟨by rw [parse_chart_data, h]; rfl, ?_, ?_⟩
  · intro lane
    unfold close_remaining_holds
    dsimp only
    rw [spec1]
    exact holdGet_replicate _ _
  · intro lane s hg
    unfold close_remaining_holds
    dsimp only
    have := spec3 lane s hg
    simpa using this

/-- Witness for C3 at a concrete chart: a measure `"2000|00"` opens a
button hold that is still open at the end; after conversion the hold
table is empty at the hold's column. -/
theorem c3_hold_table_drained_witness :
    (parse_chart_data conv6 meta0 ["2000|00"]).map
      (fun st => holdGet st.hold 1) = some none := by
  obtain ⟨st, hst⟩ : ∃ st, parse_chart_data_state conv6 meta0 ["2000|00"] = some st :=
    ⟨_, by with_unfolding_all rfl⟩
  have H := c3_hold_table_drained conv6 meta0 ["2000|00"] st hst
  rw [H.1]
  simp only [Option.map_some', Option.some.injEq]
  exact H.2.1 1

/-- C4 (amended): under positive tempos and time signatures — the
header tempo, every applied in-measure tempo value, and every applied
time-signature numerator positive — every hold event emitted by
`parse_chart_data` has its start time at or after the global start time
and its end time at or after its start time.  (Without that hypothesis
the claim is false: see the counterexample with a negative tempo.) -/
theorem c4_hold_event_bounds (c : Conv) (m : Meta) (body : List String)
    (st : BState)
    (hb : ∀ q, header_bpm m = some q → 0 < q)
    (hpos : ∀ l ∈ body, posTempoLine l = true)
    (h : parse_chart_data c m body = some st) :
    ∀ x s e, HitObj.hold x s e ∈ st.hits →
      global_start_time c m ≤ s ∧ s ≤ e ∧ global_start_time c m ≤ e := by
  rw [parse_chart_data] at h
  cases hstate : parse_chart_data_state c m body with
  | none => rw [hstate] at h; cases h
  | some st0 =>
    rw [hstate] at h
    simp only [Option.map_some', Option.some.injEq] at h
    subst h
    obtain ⟨b0, hb0, hnz, hloop⟩ := parse_state_elim hstate
    have hbpos : 0 < b0 := hb b0 hb0
    have hinv := chart_loop_inv c (body.length + 1) body hpos hloop
      (loopInv_init c m hbpos)
    obtain ⟨_, _, htime, hholds, hhits, _⟩ := hinv
    obtain ⟨_, _, _, spec4⟩ :=
      close_remaining_aux_spec c st0.hold 0 (pyTrunc st0.time) st0.hits
    intro x s e hmem
    unfold close_remaining_holds at hmem
    dsimp only at hmem
    rcases spec4 x s e hmem with hin | ⟨rfl, j, hj⟩
    · obtain ⟨h1, h2⟩ := hhits x s e hin
      exact ⟨h1, h2, le_trans h1 h2⟩
    · obtain ⟨y, rfl, hy1, hy2⟩ := hholds j s hj
      have h1 : global_start_time c m ≤ pyTrunc y := le_pyTrunc hy1
      have h2 : pyTrunc y ≤ pyTrunc st0.time := pyTrunc_mono hy2
      exact ⟨h1, h2, le_trans h1 h2⟩

/-- Witness for C4 at a concrete chart: the hold emitted for
`"2000|00"` (forced closed at the end of the chart) satisfies the
bounds. -/
theorem c4_hold_event_bounds_witness :
    global_start_time conv6 meta0 ≤ 0 ∧ (0 : Int) ≤ 2000 ∧
      global_start_time conv6 meta0 ≤ 2000 := by
  obtain ⟨st, hst⟩ : ∃ st, parse_chart_data conv6 meta0 ["2000|00"] = some st :=
    ⟨_, by with_unfolding_all rfl⟩
  have H := c4_hold_event_bounds conv6 meta0 ["2000|00"] st
    (by
      intro q hq
      have : (some (120 : ℚ) : Option ℚ) = some q := hq
      obtain rfl : (120 : ℚ) = q := by simpa using this
      norm_num)
    (by with_unfolding_all decide)
    hst
  have hhits : st.hits = [HitObj.hold 128 0 2000] := by
    have hmap : (parse_chart_data conv6 meta0 ["2000|00"]).map (fun s2 => s2.hits)
        = some [HitObj.hold 128 0 2000] := by with_unfolding_all decide
    rw [hst] at hmap
    simpa using hmap
  exact H 128 0 2000 (by rw [hhits]; exact List.mem_singleton.mpr rfl)

theorem tpsShape_append {tp0 : TimingPoint} {tps ts : List TimingPoint}
    (h : TpsShape tp0 tps) (hts : ∀ tp ∈ ts, tp.meter = 4) :
    TpsShape tp0 (tps ++ ts) := by
  obtain ⟨hne, hhead, hall⟩ := h
  cases tps with
  | nil => exact absurd rfl hne
  | cons a t =>
    refine ⟨by simp, ?_, ?_⟩
    · simpa using hhead
    · intro tp htp
      rcases List.mem_append.mp htp with hm | hm
      · exact hall tp hm
      · exact hts tp hm

theorem measure_step_tps (c : Conv) (ls : List String) {st st1 : BState}
    {rest : List String} (h : measure_step c ls st = some (st1, rest)) :
    ∃ ts, st1.tps = st.tps ++ ts ∧ ∀ tp ∈ ts, tp.meter = 4 := by
  unfold measure_step at h
  cases hcol : collect_measure c ls st with
  | none => rw [hcol] at h; cases h
  | some trip =>
    rw [hcol] at h
    obtain ⟨stc, mls, restc⟩ := trip
    obtain ⟨_, _, _, ⟨ts, htps, hmem⟩, _, _⟩ :=
      collect_measure_spec c ls st stc mls restc hcol
    have hmem4 : ∀ tp ∈ ts, tp.meter = 4 := fun tp htp => (hmem tp htp).2
    dsimp only at h
    by_cases hml : mls.isEmpty
    · rw [if_pos hml] at h
      simp only [Option.some.injEq, Prod.mk.injEq] at h
      obtain ⟨rfl, rfl⟩ := h
      exact ⟨ts, htps, hmem4⟩
    · rw [if_neg hml] at h
      by_cases hnl : (mls.filter (fun l => strContainsChar l '|')).isEmpty
      · rw [if_pos hnl] at h
        simp only [Option.some.injEq, Prod.mk.injEq] at h
        obtain ⟨rfl, rfl⟩ := h
        exact ⟨ts, htps, hmem4⟩
      · rw [if_neg hnl] at h
        simp only [Option.some.injEq, Prod.mk.injEq] at h
        obtain ⟨rfl, rfl⟩ := h
        exact ⟨ts, htps, hmem4⟩

theorem chart_loop_tps (c : Conv) (fuel : Nat) :
    ∀ (ls : List String) (st st1 : BState),
    chart_loop c fuel ls st = some st1 →
    ∃ ts, st1.tps = st.tps ++ ts ∧ ∀ tp ∈ ts, tp.meter = 4 := by
  induction fuel with
  | zero =>
    intro ls st st1 h
    cases ls with
    | nil => cases h; exact ⟨[], by simp, by simp⟩
    | cons l tail => cases h; exact ⟨[], by simp, by simp⟩
  | succ n ih =>
    intro ls st st1 h
    cases ls with
    | nil => cases h; exact ⟨[], by simp, by simp⟩
    | cons l tail =>
      rw [chart_loop] at h
      cases hms : measure_step c (l :: tail) st with
      | none => rw [hms] at h; cases h
      | some p =>
        rw [hms] at h
        obtain ⟨ts1, hts1, hm1⟩ := measure_step_tps c (l :: tail) hms
        obtain ⟨ts2, hts2, hm2⟩ := ih p.2 p.1 st1 h
        refine ⟨ts1 ++ ts2, ?_, ?_⟩
        · rw [hts2, hts1, List.append_assoc]
        · intro tp htp
          rcases List.mem_append.mp htp with hm | hm
          · exact hm1 tp hm
          · exact hm2 tp hm

theorem strStartsWith_head {s p : String} {c : Char} {cs : List Char}
    (h : strStartsWith s p = true) (hp : p.toList = c :: cs) :
    s.toList.head? = some c := by
  unfold strStartsWith at h
  rw [hp] at h
  cases hl : s.toList with
  | nil => rw [hl] at h; simp [List.isPrefixOf] at h
  | cons d ds =>
    rw [hl] at h
    simp only [List.isPrefixOf, Bool.and_eq_true, beq_iff_eq] at h
    rw [h.1]
    rfl

theorem strStartsWith_fx_not_t {s : String}
    (h : strStartsWith s "fx-l=" = true ∨ strStartsWith s "fx-r=" = true) :
    strStartsWith s "t=" = false := by
  cases hts : strStartsWith s "t=" with
  | false => rfl
  | true =>
    have h2 : s.toList.head? = some 't' :=
      strStartsWith_head hts (show ("t=").toList = 't' :: ['='] from rfl)
    rcases h with h1 | h1
    · have h3 : s.toList.head? = some 'f' := strStartsWith_head h1
        (show ("fx-l=").toList = 'f' :: ['x', '-', 'l', '='] from rfl)
      rw [h2] at h3
      exact absurd (Option.some.inj h3) (by decide)
    · have h3 : s.toList.head? = some 'f' := strStartsWith_head h1
        (show ("fx-r=").toList = 'f' :: ['x', '-', 'r', '='] from rfl)
      rw [h2] at h3
      exact absurd (Option.some.inj h3) (by decide)

theorem collect_measure_tps_exact (c : Conv) (ls : List String) :
    ∀ (st st1 : BState) (mls rest : List String),
    collect_measure c ls st = some (st1, mls, rest) →
    st1.tps = st.tps ++ measure_tempo_markers (pyTrunc st.time) st.bpm ls := by
  induction ls with
  | nil =>
    intro st st1 mls rest h
    simp only [collect_measure, Option.some.injEq, Prod.mk.injEq] at h
    obtain ⟨rfl, rfl, rfl⟩ := h
    simp [measure_tempo_markers]
  | cons l tail ih =>
    intro st st1 mls rest h
    rw [collect_measure] at h
    simp only [measure_tempo_markers]
    split at h
    · rename_i hdd
      simp only [Option.some.injEq, Prod.mk.injEq] at h
      obtain ⟨rfl, rfl, rfl⟩ := h
      rw [if_pos hdd]
      simp
    · rename_i hdd
      rw [if_neg hdd]
      split at h
      · rename_i hblank
        have hnotst : ¬ strStartsWith (pyStrip l) "t=" = true := by
          rw [hblank]; decide
        have hnt : tempoChangeVal st.bpm l = none := by
          unfold tempoChangeVal
          rw [if_neg hnotst]
        rw [hnt]
        exact ih st st1 mls rest h
      · split at h
        · rename_i hfx
          have hnotst : ¬ strStartsWith (pyStrip l) "t=" = true := by
            rw [strStartsWith_fx_not_t hfx]; decide
          have hnt : tempoChangeVal st.bpm l = none := by
            unfold tempoChangeVal
            rw [if_neg hnotst]
          rw [hnt]
          exact ih st st1 mls rest h
        · split at h
          · rename_i ht
            split at h
            · rename_i hpf
              have hnt : tempoChangeVal st.bpm l = none := by
                unfold tempoChangeVal
                rw [if_pos ht, hpf]
              rw [hnt]
              exact ih st st1 mls rest h
            · rename_i nb hpf
              split at h
              · rename_i heps
                split at h
                · cases h
                · have htc : tempoChangeVal st.bpm l = some nb := by
                    unfold tempoChangeVal
                    rw [if_pos ht, hpf]
                    dsimp only
                    rw [if_pos heps]
                  rw [htc]
                  have HI : st1.tps =
                      (st.tps ++ [(⟨pyTrunc st.time, 60000 / nb, 4⟩ :
                        TimingPoint)]) ++
                      measure_tempo_markers (pyTrunc st.time) nb tail :=
                    ih _ st1 mls rest h
                  rw [HI, List.append_assoc]
                  rfl
              · rename_i heps
                have hnt : tempoChangeVal st.bpm l = none := by
                  unfold tempoChangeVal
                  rw [if_pos ht, hpf]
                  dsimp only
                  rw [if_neg heps]
                rw [hnt]
                exact ih st st1 mls rest h
          · rename_i hnts
            have hnt : tempoChangeVal st.bpm l = none := by
              unfold tempoChangeVal
              rw [if_neg hnts]
            rw [hnt]
            split at h
            · split at h
              · rename_i b hb
                have HI : st1.tps =
                    st.tps ++ measure_tempo_markers (pyTrunc st.time)
                      st.bpm tail :=
                  ih { st with beats := b } st1 mls rest h
                exact HI
              · exact ih st st1 mls rest h
            · split at h
              · exact ih st st1 mls rest h
              · rw [Option.map_eq_some'] at h
                obtain ⟨⟨st2, mls2, rest2⟩, hcol, hmap⟩ := h
                simp only [Prod.mk.injEq] at hmap
                obtain ⟨rfl, hmls, rfl⟩ := hmap
                exact ih st st2 mls2 rest2 hcol

/-- C5 (amended): every conversion that finishes emits at least one
Tempo Marker; the first marker sits at the global start time and
encodes `(start time, 60000 / header tempo, 4)`; within each measure's
collection, additional markers are appended exactly for the
tempo-change lines whose parsed value differs from the running tempo by
more than `0.001`, each encoding `(the measure's start time, 60000 /
the new tempo, 4)`; and the meter field of every emitted marker is the
constant `4` — not the time-signature numerator in effect (the emission
sites hard-code `4`). -/
theorem c5_tempo_marker_shape (c : Conv) (m : Meta) (body : List String)
    (st : BState) (h : parse_chart_data c m body = some st) :
    (∃ b0, header_bpm m = some b0 ∧
      TpsShape ⟨global_start_time c m, 60000 / b0, 4⟩ st.tps) ∧
    (∀ (ls : List String) (st2 st1 : BState) (mls rest : List String),
      collect_measure c ls st2 = some (st1, mls, rest) →
      st1.tps = st2.tps ++
        measure_tempo_markers (pyTrunc st2.time) st2.bpm ls) := by
  refine ⟨?_, fun ls st2 st1 mls rest hcol =>
    collect_measure_tps_exact c ls st2 st1 mls rest hcol⟩
  rw [parse_chart_data] at h
  cases hstate : parse_chart_data_state c m body with
  | none => rw [hstate] at h; cases h
  | some st0 =>
    rw [hstate] at h
    simp only [Option.map_some', Option.some.injEq] at h
    subst h
    obtain ⟨b0, hb0, hnz, hloop⟩ := parse_state_elim hstate
    obtain ⟨ts, hts, hmeter⟩ := chart_loop_tps c (body.length + 1) body _ st0 hloop
    refine ⟨b0, hb0, ?_⟩
    have htps : (close_remaining_holds c st0).tps = st0.tps := rfl
    rw [htps, hts]
    exact tpsShape_append
      ⟨by simp, by simp, by intro tp htp; rcases List.mem_singleton.mp htp with rfl; rfl⟩
      hmeter

/-- Witness for C5 at concrete inputs: the empty body yields exactly
the initial marker, and a one-line measure holding a qualifying tempo
change contributes exactly that line's marker. -/
theorem c5_tempo_marker_shape_witness :
    (parse_chart_data conv6 meta0 []).map (fun st => st.tps.head?) =
      some (some ⟨global_start_time conv6 meta0, 60000 / 120, 4⟩) ∧
    (collect_measure conv6 ["t=240"] demoSt).map (fun p => p.1.tps) =
      some (demoSt.tps ++
        measure_tempo_markers (pyTrunc demoSt.time) demoSt.bpm ["t=240"]) := by
  obtain ⟨st, hst⟩ : ∃ st, parse_chart_data conv6 meta0 [] = some st :=
    ⟨_, by with_unfolding_all rfl⟩
  have H := c5_tempo_marker_shape conv6 meta0 [] st hst
  refine ⟨?_, ?_⟩
  · obtain ⟨b0, hb0, hshape⟩ := H.1
    obtain rfl : (120 : ℚ) = b0 := by
      have h2 : (some (120 : ℚ) : Option ℚ) = some b0 := hb0
      simpa using h2
    rw [hst]
    simp only [Option.map_some', Option.some.injEq]
    exact hshape.2.1
  · obtain ⟨trip, htrip⟩ :
        ∃ trip, collect_measure conv6 ["t=240"] demoSt = some trip :=
      ⟨_, by with_unfolding_all rfl⟩
    obtain ⟨st1, mls, rest⟩ := trip
    rw [htrip]
    simp only [Option.map_some', Option.some.injEq]
    exact H.2 ["t=240"] demoSt st1 mls rest htrip

/-- C6 (amended): under positive tempos and time signatures the
timing-point list is nondecreasing in time, and the serializer lays the
timing points and then the hit objects into the document in exactly the
order produced, with no re-sorting.  (The hit-object list itself is not
generally ordered by start time: see the counterexample.) -/
theorem c6_emission_order (c : Conv) (m : Meta) (body : List String)
    (st : BState)
    (hb : ∀ q, header_bpm m = some q → 0 < q)
    (hpos : ∀ l ∈ body, posTempoLine l = true)
    (h : parse_chart_data c m body = some st) :
    List.Pairwise (fun a b : TimingPoint => a.time ≤ b.time) st.tps ∧
    osu_lines c m st.tps st.hits =
      osu_header c m ++ ["", "[TimingPoints]"] ++ st.tps.map serialize_tp
        ++ ["", "[HitObjects]"] ++ st.hits.map serialize_hit := by
  rw [parse_chart_data] at h
  cases hstate : parse_chart_data_state c m body with
  | none => rw [hstate] at h; cases h
  | some st0 =>
    rw [hstate] at h
    simp only [Option.map_some', Option.some.injEq] at h
    subst h
    obtain ⟨b0, hb0, hnz, hloop⟩ := parse_state_elim hstate
    have hinv := chart_loop_inv c (body.length + 1) body hpos hloop
      (loopInv_init c m (hb b0 hb0))
    refine ⟨?_, rfl⟩
    have htps : (close_remaining_holds c st0).tps = st0.tps := rfl
    rw [htps]
    exact hinv.2.2.2.2.2.1

/-- Witness for C6 at a concrete chart. -/
theorem c6_emission_order_witness :
    List.Pairwise (fun a b : TimingPoint => a.time ≤ b.time)
      [({ time := 0, msPerBeat := 500, meter := 4 } : TimingPoint)] := by
  obtain ⟨st, hst⟩ : ∃ st, parse_chart_data conv6 meta0 ["1000|00"] = some st :=
    ⟨_, by with_unfolding_all rfl⟩
  have H := c6_emission_order conv6 meta0 ["1000|00"] st
    (by
      intro q hq
      have : (some (120 : ℚ) : Option ℚ) = some q := hq
      obtain rfl : (120 : ℚ) = q := by simpa using this
      norm_num)
    (by with_unfolding_all decide)
    hst
  have htps : st.tps = [⟨0, 500, 4⟩] := by
    have hmap : (parse_chart_data conv6 meta0 ["1000|00"]).map (fun s2 => s2.tps)
        = some [⟨0, 500, 4⟩] := by with_unfolding_all decide
    rw [hst] at hmap
    simpa using hmap
  rw [← htps]
  exact H.1

theorem chart_loop_step (c : Conv) (n : Nat) (l : String) (rest : List String)
    (st p1 : BState) (p2 : List String)
    (h : measure_step c (l :: rest) st = some (p1, p2)) :
    chart_loop c (n + 1) (l :: rest) st = chart_loop c n p2 p1 := by
  rw [chart_loop, h]

theorem parse_chart_data_state_default (c : Conv) (m : Meta)
    (body : List String) (b0 : ℚ) (hb : header_bpm m = some b0)
    (hnz : ¬ b0 = 0) :
    parse_chart_data_state c m body = chart_loop c (body.length + 1) body
      ⟨b0, 4, (global_start_time c m : ℚ), List.replicate (numLanes c) none,
       [⟨global_start_time c m, 60000 / b0, 4⟩], []⟩ := by
  unfold parse_chart_data_state
  rw [hb]
  dsimp only
  rw [if_neg hnz]

/-- Counterexample to C1 as stated: the Timeline Builder never invokes
the Hold-Boundary Resolver — `parse_chart_data` reaches
`process_measure`, which always passes `None` lookahead data, so
`check_cross_measure_holds` is dead code.  On the chart
`["0002|00", "--", "1000|00"]` the real pipeline emits the tap before
the boundary-closing hold (the hold is closed by the per-line `'0'`
processing of the next measure's first line), while the pipeline that
does invoke the resolver at the boundary (`parse_chart_data_claimed`,
modelled from the claim's words) emits the hold first; the two outputs
differ, so the builder observably does not do what the claim says. -/
theorem c1_counterexample :
    (parse_chart_data conv6 meta0 ["0002|00", "--", "1000|00"]).map
        (fun st => st.hits) =
      some [HitObj.tap 128 2000, HitObj.hold 384 0 2000] ∧
    (parse_chart_data_claimed conv6 meta0 ["0002|00", "--", "1000|00"]).map
        (fun st => st.hits) =
      some [HitObj.hold 384 0 2000, HitObj.tap 128 2000] ∧
    (parse_chart_data conv6 meta0 ["0002|00", "--", "1000|00"]).map
        (fun st => st.hits) ≠
      (parse_chart_data_claimed conv6 meta0 ["0002|00", "--", "1000|00"]).map
        (fun st => st.hits) := by
  refine ⟨?_, ?_, ?_⟩ <;> with_unfolding_all decide

/-- C1 (amended): the resolver is never invoked, yet the scenario's
observable outcome holds — a measure `"2000|00"` opening a button hold,
followed by a measure starting `"0000|00"`, yields exactly one hold
event ending exactly at the measure boundary time 2000 (not one line
later), because the next measure's first note-data line is processed at
exactly the boundary time and its `'0'` closes the hold there. -/
theorem c1_hold_closes_at_boundary :
    (parse_chart_data conv6 meta0 ["2000|00", "--", "0000|00"]).map
      (fun st => st.hits) = some [HitObj.hold 128 0 2000] := by
  with_unfolding_all decide

/-- Counterexample to C2 as stated: on the single-measure chart
`["1|", "t=240", "1|"]` the in-measure tempo change appends its marker
at time 0 — the measure's start time, which the claim's parenthetical
excludes — because the collection loop processes every control line
before any time passes; by the time the `t=` line is "encountered in
sequence" one note line has already been passed, so under the claim the
marker would sit strictly after the measure start.  Moreover both note
lines (including the one *before* the change) are timed on the new 240
bpm base (0 and 500); on the old 120 bpm base the second line would sit
at 1000. -/
theorem c2_counterexample :
    (parse_chart_data conv6 meta0 ["1|", "t=240", "1|"]).map
      (fun st => (st.tps, st.hits)) =
      some ([⟨0, 500, 4⟩, ⟨0, 250, 4⟩],
        [HitObj.tap 128 0, HitObj.tap 128 500]) := by
  with_unfolding_all decide

/-- Counterexample to C4 as stated: a chart may carry a negative tempo
(`t=-120` parses fine and passes the epsilon test), which makes the
measure duration negative; the hold opened at time 0 is then closed at
time -2000, giving a hold event whose end time is below both its start
time and the global start time 0. -/
theorem c4_counterexample :
    (parse_chart_data conv6 meta0 ["t=-120", "2000|00", "--", "0000|00"]).map
      (fun st => st.hits) = some [HitObj.hold 128 0 (-2000)] ∧
    global_start_time conv6 meta0 = 0 ∧ ¬ ((0 : Int) ≤ -2000) := by
  refine ⟨?_, ?_, ?_⟩
  · with_unfolding_all decide
  · with_unfolding_all decide
  · decide

/-- Counterexample to C5 as stated: after `beat=3` sets the
time-signature numerator to 3, the marker appended for `t=240` still
carries 4 in its meter field — the emission site hard-codes `4` and
does not use the numerator in effect. -/
theorem c5_counterexample :
    (parse_chart_data conv6 meta0 ["beat=3", "t=240", "1000|00"]).map
      (fun st => (st.tps, st.beats)) =
      some ([⟨0, 500, 4⟩, ⟨0, 250, 4⟩], 3) ∧
    (⟨0, 250, 4⟩ : TimingPoint).meter ≠ 3 := by
  constructor
  · with_unfolding_all decide
  · decide

/-- Counterexample to C6 as stated: the note-event list is not ordered
by nondecreasing start time — a hold on the fourth button column opened
at time 0 is closed while processing the next measure's first line, so
it is appended *after* the tap at time 2000 emitted earlier in that
same line. -/
theorem c6_counterexample :
    (parse_chart_data conv6 meta0 ["0002|00", "--", "1000|00"]).map
        (fun st => st.hits.map hit_start_time) = some [2000, 0] ∧
    ¬ ((2000 : Int) ≤ 0) := by
  constructor
  · with_unfolding_all decide
  · decide

/-- Counterexample to C7 as stated: a measure containing only the
control line `t=60` collects no measure lines, so the code advances the
clock by nothing — the next measure's tap lands at time 0 — whereas the
claim requires an advance by the full measure duration at the tempo in
effect at measure start (120 bpm, 4 beats: 2000 ms). -/
theorem c7_counterexample :
    (parse_chart_data conv6 meta0 ["t=60", "--", "1000|00"]).map
      (fun st => st.hits) = some [HitObj.tap 128 0] ∧
    60000 / (120 : ℚ) * 4 = 2000 ∧ (0 : Int) ≠ 2000 := by
  refine ⟨?_, ?_, ?_⟩
  · with_unfolding_all decide
  · with_unfolding_all decide
  · decide

/-- C8: the code contradicts the claim's (and its own) error-handling
design at exactly one spot — an unparsable *header* tempo.
`parse_chart_data` wraps the offset parse and the in-body `t=`/`beat=`
parses in `try/except`, but line 85 calls `float(meta.get('t', 120))`
bare, so a header `t=abc` raises `ValueError` and aborts the
conversion (modelled as `none`), while the same malformed tempo in a
chart-body control line is recovered silently and the conversion
proceeds with the 120 default. -/
theorem c8_header_tempo_crash :
    parse_chart_data conv6 metaBadTempo ["1000|00"] = none ∧
    (parse_chart_data conv6 meta0 ["t=abc", "1000|00"]).map
      (fun st => st.hits) = some [HitObj.tap 128 0] := by
  constructor
  · with_unfolding_all decide
  · with_unfolding_all decide

/-- Counterexample to C9 as stated: a header line with an empty key
(`"=foo"`) is *not* skipped — the extractor inserts the value under the
empty-string key. -/
theorem c9_empty_key_inserted :
    (parse_ksh_metadata ["=foo", "--"]).1 "" = some "foo" := by
  with_unfolding_all decide

/-- C2 (amended): an in-measure tempo-change line whose parsed value
differs from the current tempo by more than 0.001 appends exactly one
new Tempo Marker, but its timestamp is the *measure's start time*
(`int(current_time)`, which the collection loop never advances), not
the in-sequence time the claim describes; and the tempo set by the last
such line governs the time base of *all* the measure's note-data lines
(the measure processor is invoked, after collection, with the
post-collection tempo and time signature for every line), not only the
lines after the change. -/
theorem c2_tempo_marker_timing (c : Conv) (ls : List String)
    (st st1 : BState) (mls rest : List String)
    (h : collect_measure c ls st = some (st1, mls, rest)) :
    st1.time = st.time ∧ st1.hits = st.hits ∧
    (∃ ts, st1.tps = st.tps ++ ts ∧ ∀ tp ∈ ts, tp.time = pyTrunc st.time) ∧
    (mls.filter (fun l => strContainsChar l '|') ≠ [] →
      measure_step c ls st = some ({ st1 with
        time := (process_measure c (mls.filter (fun l => strContainsChar l '|'))
          st.time st1.bpm st1.beats st1.hold st1.hits).1,
        hold := (process_measure c (mls.filter (fun l => strContainsChar l '|'))
          st.time st1.bpm st1.beats st1.hold st1.hits).2.1,
        hits := (process_measure c (mls.filter (fun l => strContainsChar l '|'))
          st.time st1.bpm st1.beats st1.hold st1.hits).2.2 }, rest)) := by
  obtain ⟨ht, hhold, hhit, ⟨ts, htps, hmem⟩, _, _⟩ :=
    collect_measure_spec c ls st st1 mls rest h
  refine ⟨ht, hhit, ⟨ts, htps, fun tp htp => (hmem tp htp).1⟩, ?_⟩
  intro hne
  have hmne : ¬ mls.isEmpty = true := by
    intro hempty
    rw [List.isEmpty_iff] at hempty
    exact hne (by simp [hempty])
  have hnne : ¬ (mls.filter (fun l => strContainsChar l '|')).isEmpty = true := by
    intro hempty
    exact hne (List.isEmpty_iff.mp hempty)
  unfold measure_step
  rw [h]
  dsimp only
  rw [if_neg hmne, if_neg hnne]

/-- Witness for C2 at a concrete input: collecting the single control
line `t=240` from the default state leaves the clock untouched. -/
theorem c2_tempo_marker_timing_witness :
    (collect_measure conv6 ["t=240"] demoSt).map (fun p => p.1.time) =
      some demoSt.time := by
  obtain ⟨trip, htrip⟩ : ∃ tr, collect_measure conv6 ["t=240"] demoSt = some tr :=
    ⟨_, by with_unfolding_all rfl⟩
  obtain ⟨st1, mls, rest⟩ := trip
  have H := c2_tempo_marker_timing conv6 ["t=240"] demoSt st1 mls rest htrip
  rw [htrip]
  simp only [Option.map_some', Option.some.injEq]
  exact H.1

/-- C7 (amended): a measure whose collected lines are nonempty but
contain no note-data line advances the clock by a full measure duration
computed from the tempo and time-signature in force *after* that
measure's control lines have been applied (the variables saved at
measure entry are never used); a measure that collects no lines at all
— e.g. one holding only control lines — advances the clock by
nothing. -/
theorem c7_empty_measure_advance (c : Conv) (ls : List String)
    (st st1 : BState) (mls rest : List String)
    (h : collect_measure c ls st = some (st1, mls, rest)) :
    st1.time = st.time ∧
    (mls ≠ [] → mls.filter (fun l => strContainsChar l '|') = [] →
      measure_step c ls st =
        some ({ st1 with time := st.time + 60000 / st1.bpm * (st1.beats : ℚ) },
          rest)) ∧
    (mls = [] → measure_step c ls st = some (st1, rest)) := by
  obtain ⟨ht, _, _, _, _, _⟩ := collect_measure_spec c ls st st1 mls rest h
  refine ⟨ht, ?_, ?_⟩
  · intro hmne hfil
    unfold measure_step
    rw [h]
    dsimp only
    rw [if_neg (by simpa [List.isEmpty_iff] using hmne), if_pos (by simp [hfil])]
    rw [ht]
  · intro hmnil
    unfold measure_step
    rw [h]
    dsimp only
    rw [if_pos (by simp [hmnil])]

/-- Witness for C7 at a concrete input: the measure `["t=60"]` collects
no lines, so the step leaves the clock at the entry time even though
the tempo changed. -/
theorem c7_empty_measure_advance_witness :
    measure_step conv6 ["t=60"] demoSt =
      some (⟨60, 4, 0, List.replicate 6 none, [⟨0, 1000, 4⟩], []⟩, []) := by
  have htrip : collect_measure conv6 ["t=60"] demoSt =
      some (⟨60, 4, 0, List.replicate 6 none, [⟨0, 1000, 4⟩], []⟩, [], []) := by
    with_unfolding_all decide
  have H := c7_empty_measure_advance conv6 ["t=60"] demoSt _ [] [] htrip
  exact H.2.2 rfl

theorem optOr_assoc (a b c2 : Option String) :
    optOr a (optOr b c2) = optOr (optOr a b) c2 := by
  cases a <;> rfl

theorem spec_lookup_stop (l : String) (rest : List String) (k : String)
    (hd : pyStrip l = "--") : spec_meta_lookup (l :: rest) k = none := by
  unfold spec_meta_lookup
  rw [List.takeWhile_cons]
  simp [hd]

theorem spec_lookup_cons (l : String) (rest : List String) (k : String)
    (hne : ¬ pyStrip l = "--") :
    spec_meta_lookup (l :: rest) k =
      optOr (spec_meta_lookup rest k)
        ((spec_parse_line l).bind
          (fun p => if p.1 = k then some p.2 else none)) := by
  unfold spec_meta_lookup
  rw [List.takeWhile_cons,
    if_pos (show decide (pyStrip l ≠ "--") = true by simp [hne]),
    List.reverse_cons, List.filterMap_append, List.find?_append]
  cases hA : ((rest.takeWhile (fun l2 => pyStrip l2 ≠ "--")).reverse.filterMap
      spec_parse_line).find? (fun p => p.1 = k) with
  | some v => simp [hA, Option.or, optOr]
  | none =>
    simp only [hA, Option.or, optOr]
    cases hsp : spec_parse_line l with
    | none => simp [List.filterMap_cons, hsp]
    | some kv =>
      simp only [List.filterMap_cons, hsp, List.filterMap_nil, List.find?]
      by_cases hk : kv.1 = k
      · simp [hk]
      · simp [hk]

theorem parse_ksh_metadata_aux_eq (lines : List String) :
    ∀ (m : Meta) (i : Nat) (k : String),
    (parse_ksh_metadata_aux lines m i).1 k =
      optOr (spec_meta_lookup lines k) (m k) := by
  induction lines with
  | nil =>
    intro m i k
    simp [parse_ksh_metadata_aux, spec_meta_lookup, optOr]
  | cons l rest ih =>
    intro m i k
    rw [parse_ksh_metadata_aux]
    by_cases hd : pyStrip l = "--"
    · rw [if_pos hd, spec_lookup_stop l rest k hd]
      rfl
    · rw [if_neg hd]
      dsimp only
      rw [ih, spec_lookup_cons l rest k hd, ← optOr_assoc]
      have hm2 :
          (if strContainsChar (pyStrip l) '=' = true ∧
              ¬ strStartsWith (pyStrip l) "#" = true then
            metaInsert m (bomStrip (pyStrip (splitFirstEq (pyStrip l)).1))
              (pyStrip (splitFirstEq (pyStrip l)).2)
          else m) k =
          optOr ((spec_parse_line l).bind
            (fun p => if p.1 = k then some p.2 else none)) (m k) := by
        by_cases hc : strContainsChar (pyStrip l) '=' = true ∧
            ¬ strStartsWith (pyStrip l) "#" = true
        · rw [if_pos hc]
          have hsp : spec_parse_line l =
              some (bomStrip (pyStrip (splitFirstEq (pyStrip l)).1),
                pyStrip (splitFirstEq (pyStrip l)).2) := by
            unfold spec_parse_line
            rw [if_pos hc]
          rw [hsp]
          unfold metaInsert optOr
          by_cases hk : k = bomStrip (pyStrip (splitFirstEq (pyStrip l)).1)
          · rw [if_pos hk]
            simp [hk]
          · rw [if_neg hk]
            simp [show ¬ (bomStrip (pyStrip (splitFirstEq (pyStrip l)).1) = k)
              from fun h2 => hk h2.symm]
        · rw [if_neg hc]
          have hsp : spec_parse_line l = none := by
            unfold spec_parse_line
            rw [if_neg hc]
          rw [hsp]
          rfl
      rw [hm2]

/-- C9 (amended): the metadata extractor is extensionally the mapping
that, for each key, returns the trimmed value of the *last* line before
the first `--` delimiter whose trimmed form contains `=`, does not
begin with `#`, and whose trimmed, BOM-stripped key (the part before
the first `=`) equals the requested key.  Lines with no `=` or starting
with `#` contribute nothing, and later duplicates overwrite earlier
ones; but a line with an empty key is *not* skipped — it inserts a
binding under the empty-string key (see the counterexample). -/
theorem c9_metadata_extraction (lines : List String) (k : String) :
    (parse_ksh_metadata lines).1 k = spec_meta_lookup lines k := by
  unfold parse_ksh_metadata
  rw [parse_ksh_metadata_aux_eq]
  cases spec_meta_lookup lines k <;> rfl

theorem process_seg_take (c : Conv) (isFx : Bool) (limit : Nat) :
    ∀ (chars chars2 : List Char) (idx : Nat) (t : Int)
      (hs : List (Option Int)) (hits : List HitObj),
    chars.take (limit - idx) = chars2.take (limit - idx) →
    process_seg c isFx limit chars idx t hs hits =
      process_seg c isFx limit chars2 idx t hs hits := by
  intro chars
  induction chars with
  | nil =>
    intro chars2 idx t hs hits h
    cases chars2 with
    | nil => rfl
    | cons b bs =>
      have h0 : limit - idx = 0 := by
        by_contra hne
        obtain ⟨n, hn⟩ := Nat.exists_eq_succ_of_ne_zero hne
        rw [hn] at h
        simp [List.take_succ_cons] at h
      have hli : limit ≤ idx := Nat.le_of_sub_eq_zero h0
      rw [process_seg, process_seg, if_pos hli]
  | cons a as ih =>
    intro chars2 idx t hs hits h
    cases chars2 with
    | nil =>
      have h0 : limit - idx = 0 := by
        by_contra hne
        obtain ⟨n, hn⟩ := Nat.exists_eq_succ_of_ne_zero hne
        rw [hn] at h
        simp [List.take_succ_cons] at h
      have hli : limit ≤ idx := Nat.le_of_sub_eq_zero h0
      rw [process_seg, process_seg, if_pos hli]
    | cons b bs =>
      by_cases hli : limit ≤ idx
      · rw [process_seg, process_seg, if_pos hli, if_pos hli]
      · have hsub : limit - idx = (limit - (idx + 1)) + 1 := by omega
        rw [hsub, List.take_succ_cons, List.take_succ_cons] at h
        injection h with h1 h2
        subst h1
        rw [process_seg, process_seg, if_neg hli, if_neg hli]
        exact ih bs (idx + 1) t _ _ h2

theorem cross_seg_take (c : Conv) (isFx : Bool) (closeChars : List Char)
    (limit : Nat) :
    ∀ (chars chars2 : List Char) (idx : Nat) (endT : Int)
      (hs : List (Option Int)) (hits : List HitObj),
    chars.take (limit - idx) = chars2.take (limit - idx) →
    cross_seg c isFx closeChars limit chars idx endT hs hits =
      cross_seg c isFx closeChars limit chars2 idx endT hs hits := by
  intro chars
  induction chars with
  | nil =>
    intro chars2 idx endT hs hits h
    cases chars2 with
    | nil => rfl
    | cons b bs =>
      have h0 : limit - idx = 0 := by
        by_contra hne
        obtain ⟨n, hn⟩ := Nat.exists_eq_succ_of_ne_zero hne
        rw [hn] at h
        simp [List.take_succ_cons] at h
      have hli : limit ≤ idx := Nat.le_of_sub_eq_zero h0
      rw [cross_seg, cross_seg, if_pos hli]
  | cons a as ih =>
    intro chars2 idx endT hs hits h
    cases chars2 with
    | nil =>
      have h0 : limit - idx = 0 := by
        by_contra hne
        obtain ⟨n, hn⟩ := Nat.exists_eq_succ_of_ne_zero hne
        rw [hn] at h
        simp [List.take_succ_cons] at h
      have hli : limit ≤ idx := Nat.le_of_sub_eq_zero h0
      rw [cross_seg, cross_seg, if_pos hli]
    | cons b bs =>
      by_cases hli : limit ≤ idx
      · rw [cross_seg, cross_seg, if_pos hli, if_pos hli]
      · have hsub : limit - idx = (limit - (idx + 1)) + 1 := by omega
        rw [hsub, List.take_succ_cons, List.take_succ_cons] at h
        injection h with h1 h2
        subst h1
        rw [cross_seg, cross_seg, if_neg hli, if_neg hli]
        exact ih bs (idx + 1) endT _ _ h2

theorem process_note_line_congr (c : Conv) (l l2 : String) (t : Int)
    (hs : List (Option Int)) (hits : List HitObj)
    (h : seg_key l = seg_key l2) :
    process_note_line c l t hs hits = process_note_line c l2 t hs hits := by
  have hbt : (btPart l).toList.take 4 = (btPart l2).toList.take 4 :=
    congrArg (fun p => p.1) h
  have hfx : (fxPart l).toList.take 2 = (fxPart l2).toList.take 2 :=
    congrArg (fun p => p.2.1) h
  unfold process_note_line
  rw [process_seg_take c false 4 (btPart l).toList (btPart l2).toList 0 t hs hits
    hbt]
  rw [process_seg_take c true 2 (fxPart l).toList (fxPart l2).toList 0 t _ _ hfx]

theorem process_lines_congr (c : Conv) {ls ls2 : List String}
    (h : List.Forall₂ (fun a b => seg_key a = seg_key b) ls ls2) :
    ∀ (k : Nat) (start ld : ℚ) (hs : List (Option Int)) (hits : List HitObj),
    process_lines c ls k start ld hs hits =
      process_lines c ls2 k start ld hs hits := by
  induction h with
  | nil => intro k start ld hs hits; rfl
  | cons hab htail ih =>
    intro k start ld hs hits
    rw [process_lines, process_lines]
    rw [process_note_line_congr c _ _ _ _ _ hab]
    exact ih (k + 1) start ld _ _

theorem check_cross_congr (c : Conv) (hs : List (Option Int))
    (hits : List HitObj) (endT : Int) {nd nd2 : List String}
    (h : List.Forall₂ (fun a b => seg_key a = seg_key b) nd nd2) :
    check_cross_measure_holds c hs hits nd endT =
      check_cross_measure_holds c hs hits nd2 endT := by
  induction h with
  | nil => rfl
  | @cons a b l l2 hab htail ih =>
    unfold check_cross_measure_holds
    have hc : strContainsChar a '|' = strContainsChar b '|' :=
      congrArg (fun p => p.2.2) hab
    rw [List.find?_cons, List.find?_cons, ← hc]
    cases hp : strContainsChar a '|' with
    | true =>
      dsimp only
      have hbt : (btPart a).toList.take 4 = (btPart b).toList.take 4 :=
        congrArg (fun p => p.1) hab
      have hfx : (fxPart a).toList.take 2 = (fxPart b).toList.take 2 :=
        congrArg (fun p => p.2.1) hab
      rw [cross_seg_take c false ['0', '1', ' '] 4 (btPart a).toList
        (btPart b).toList 0 endT hs hits hbt]
      rw [cross_seg_take c true ['0', '2', ' '] 2 (fxPart a).toList
        (fxPart b).toList 0 endT _ _ hfx]
    | false =>
      exact ih

/-- C10: only the first four characters of a note-data line's first
segment, the first two characters of its second segment, and the
presence of a separator are ever consulted — everything after the
second `|` (e.g. the laser segment) is ignored both by per-line note
processing and by the boundary lookahead, in both column modes: two
line lists agreeing on those keys produce identical results. -/
theorem c10_extra_segments_ignored (c : Conv) (start bpm : ℚ) (beats : Int)
    (hs : List (Option Int)) (hits : List HitObj) (endT : Int)
    (ls ls2 nd nd2 : List String)
    (h1 : List.Forall₂ (fun a b => seg_key a = seg_key b) ls ls2)
    (h2 : List.Forall₂ (fun a b => seg_key a = seg_key b) nd nd2) :
    process_measure_with_lookahead c ls start bpm beats hs hits none =
      process_measure_with_lookahead c ls2 start bpm beats hs hits none ∧
    check_cross_measure_holds c hs hits nd endT =
      check_cross_measure_holds c hs hits nd2 endT := by
  refine ⟨?_, check_cross_congr c hs hits endT h2⟩
  cases h1 with
  | nil => rfl
  | @cons a b l l2 hab htail =>
    unfold process_measure_with_lookahead
    simp only [List.isEmpty_cons]
    have hlen : (a :: l).length = (b :: l2).length := by
      simp [htail.length_eq]
    rw [hlen]
    rw [process_lines_congr c (List.Forall₂.cons hab htail) 0 start _ hs hits]

/-- Witness for C10 at concrete inputs: lines differing only after the
second separator process identically. -/
theorem c10_extra_segments_ignored_witness :
    process_measure_with_lookahead conv6 ["1032|20|0o-"] 0 120 4
        (List.replicate 6 none) [] none =
      process_measure_with_lookahead conv6 ["1032|20|:::"] 0 120 4
        (List.replicate 6 none) [] none ∧
    check_cross_measure_holds conv6 (List.replicate 6 none) [] ["10|00|aaa"] 999 =
      check_cross_measure_holds conv6 (List.replicate 6 none) [] ["10|00|bbb"] 999 := by
  exact c10_extra_segments_ignored conv6 0 120 4 (List.replicate 6 none) [] 999
    ["1032|20|0o-"] ["1032|20|:::"] ["10|00|aaa"] ["10|00|bbb"]
    (List.Forall₂.cons (by with_unfolding_all decide) List.Forall₂.nil)
    (List.Forall₂.cons (by with_unfolding_all decide) List.Forall₂.nil)
